import Mathlib

/-!
Verification of the inline parser of the jotdown repository (`src/inline.rs`).

The parser state, event model and all parsing functions are translated from
`src/inline.rs`.  The lexer (`crate::lex`) and the `Span` type are external
collaborators of that file (their sources are not part of the core); they are
modelled from the specification's description of their interfaces (token kinds
with explicit lengths, run tokens, brace delimiters, span arithmetic over the
cumulative chunk-concatenated source).  Offsets are character offsets; all
concrete inputs used below are ASCII, where character and byte offsets agree.

Rust panics (`assert!`, `assert_eq!`, out-of-bounds indexing) are modelled by
the `Except String` monad: `.error` is a panic, `.ok` is normal execution.
-/

namespace Jotdown

/-- A contiguous range of the logical (chunk-concatenated) source.
Modelled from the spec: span arithmetic is an external collaborator supporting
extension by a length, union of adjacent ranges, empty spans and construction
from a start and a length.  `stop` plays the role of the source's `end()`. -/
structure Span where
  start : Nat
  stop : Nat
deriving Repr, DecidableEq

/-- Extend a span to cover `n` more characters. -/
def Span.extend (s : Span) (n : Nat) : Span := ⟨s.start, s.stop + n⟩

/-- The empty span at position `p`. -/
def Span.emptyAt (p : Nat) : Span := ⟨p, p⟩

/-- The span of length `n` beginning at `a`. -/
def Span.byLen (a n : Nat) : Span := ⟨a, a + n⟩

/-- Union of two adjacent spans. -/
def Span.union (a b : Span) : Span := ⟨a.start, b.stop⟩

/-- The text of the source `s` addressed by span `sp`. -/
def Span.sliceOf (sp : Span) (s : List Char) : List Char :=
  (s.take sp.stop).drop sp.start

/-- Run tokens of the lexer.  Modelled from the spec: the token source
supplies typed tokens with explicit lengths; runs of backticks, dollars,
hyphens and periods arrive as one token carrying the run length. -/
inductive Sequence
  | Backtick
  | Dollar
  | Hyphen
  | Period
deriving Repr, DecidableEq

/-- Single symbol tokens of the lexer, as consumed by `Parser::parse_container`. -/
inductive Symbol
  | Asterisk
  | Underscore
  | Caret
  | Tilde
  | Quote1
  | Quote2
deriving Repr, DecidableEq

/-- Paired delimiter tokens of the lexer, as consumed by `Parser::parse_container`. -/
inductive Delimiter
  | Bracket
  | BraceAsterisk
  | BraceCaret
  | BraceEqual
  | BraceHyphen
  | BracePlus
  | BraceTilde
  | BraceUnderscore
deriving Repr, DecidableEq

/-- Token kinds.  Modelled from the spec: `Hardbreak`, `Escape` and `Nbsp` are
declared (the parser matches on them in `parse_atom`) but the spec gives no
character-level rule producing them, so the modelled lexer never emits them. -/
inductive Kind
  | Text
  | Newline
  | Hardbreak
  | Escape
  | Nbsp
  | Seq (s : Sequence)
  | Sym (s : Symbol)
  | Open (d : Delimiter)
  | Close (d : Delimiter)
deriving Repr, DecidableEq

/-- A lexical token: a kind plus the number of source characters it covers. -/
structure Token where
  kind : Kind
  len : Nat
deriving Repr, DecidableEq

/-- Count the leading run of the character `c`, returning the run length and
the remaining characters. -/
def runLen (c : Char) : List Char → Nat × List Char
  | [] => (0, [])
  | x :: xs => if x = c then ((runLen c xs).1 + 1, (runLen c xs).2) else (0, x :: xs)

/-- The delimiter opened by `'{'` followed by the given character, if any. -/
def openDelimOf? (c : Char) : Option Delimiter :=
  if c = '*' then some .BraceAsterisk
  else if c = '^' then some .BraceCaret
  else if c = '=' then some .BraceEqual
  else if c = '-' then some .BraceHyphen
  else if c = '+' then some .BracePlus
  else if c = '~' then some .BraceTilde
  else if c = '_' then some .BraceUnderscore
  else none

/-- The run token family of a character, if any. -/
def seqOf? (c : Char) : Option Sequence :=
  if c = '`' then some .Backtick
  else if c = '$' then some .Dollar
  else if c = '-' then some .Hyphen
  else if c = '.' then some .Period
  else none

/-- The symbol token of a character, if any. -/
def symOf? (c : Char) : Option Symbol :=
  if c = '*' then some .Asterisk
  else if c = '_' then some .Underscore
  else if c = '^' then some .Caret
  else if c = '~' then some .Tilde
  else if c = '\'' then some .Quote1
  else if c = '"' then some .Quote2
  else none

/-- Lexing a character that is neither a newline, a bracket, nor part of a
brace delimiter: a run token, a symbol token, or a one-character text token. -/
def lexOther (c : Char) (cs : List Char) : Token × List Char :=
  match seqOf? c with
  | some sq => ((⟨.Seq sq, (runLen c cs).1 + 1⟩ : Token), (runLen c cs).2)
  | none =>
    match symOf? c with
    | some sy => (⟨.Sym sy, 1⟩, cs)
    | none => (⟨.Text, 1⟩, cs)

/-- One step of the lexer.  Modelled from the spec: the token source turns the
raw characters of the current chunk into typed tokens with lengths; `'{'`
followed by a delimiter character opens a brace delimiter, a delimiter
character followed by `'}'` closes one, brackets stand alone, special
characters form run or symbol tokens, anything else is text.  A token is
always at least one character and tokens tile the chunk exactly. -/
def lexToken : List Char → Option (Token × List Char)
  | [] => none
  | c :: cs =>
    if c = '\n' then some (⟨.Newline, 1⟩, cs)
    else if c = '[' then some (⟨.Open .Bracket, 1⟩, cs)
    else if c = ']' then some (⟨.Close .Bracket, 1⟩, cs)
    else if c = '{' then
      match cs with
      | d :: rest =>
        match openDelimOf? d with
        | some del => some (⟨.Open del, 2⟩, rest)
        | none => some (⟨.Text, 1⟩, cs)
      | [] => some (⟨.Text, 1⟩, [])
    else
      match openDelimOf? c, cs with
      | some del, '}' :: rest => some (⟨.Close del, 2⟩, rest)
      | _, _ => some (lexOther c cs)

/-- The token source over the raw remainder of the current chunk.
Modelled from the spec: supports one-token lookahead, raw-remainder lookahead,
and re-pointing to an arbitrary suffix of the current chunk. -/
structure Lexer where
  chars : List Char
deriving Repr, DecidableEq

instance instDecEqExcept {ε α : Type} [DecidableEq ε] [DecidableEq α] :
    DecidableEq (Except ε α) := fun x y =>
  match x, y with
  | .error a, .error b =>
    if h : a = b then .isTrue (by rw [h]) else .isFalse (by simp [h])
  | .ok a, .ok b =>
    if h : a = b then .isTrue (by rw [h]) else .isFalse (by simp [h])
  | .error _, .ok _ => .isFalse (by simp)
  | .ok _, .error _ => .isFalse (by simp)

/-- `Atom` from `src/inline.rs`. -/
inductive Atom
  | Softbreak
  | Hardbreak
  | Escape
  | Nbsp
  | Ellipsis
  | EnDash
  | EmDash
deriving Repr, DecidableEq

/-- `Container` from `src/inline.rs`. -/
inductive Container
  | Span
  | Subscript
  | Superscript
  | Insert
  | Delete
  | Emphasis
  | Strong
  | Mark
  | SingleQuoted
  | DoubleQuoted
  | Verbatim
  | RawFormat
  | InlineMath
  | DisplayMath
  | ReferenceLink
  | InlineLink
  | AutoLink
deriving Repr, DecidableEq

/-- `EventKind` from `src/inline.rs`. -/
inductive EventKind
  | Enter (c : Container)
  | Exit (c : Container)
  | Atom (a : Atom)
  | Str
  | Attributes
deriving Repr, DecidableEq

/-- `Event` from `src/inline.rs`. -/
structure Event where
  kind : EventKind
  span : Span
deriving Repr, DecidableEq

/-- `State` from `src/inline.rs`: the single-slot non-recursive mode. -/
inductive State
  | None
  | Verbatim (kind : Container) (openerLen : Nat) (openerEvent : Nat)
  | Attributes (comment : Bool)
  | Url (auto : Bool)
  | ReferenceLinkTag
deriving Repr, DecidableEq

/-- `State::verbatim` from `src/inline.rs`. -/
def State.verbatim? : State → Option (Container × Nat × Nat)
  | .Verbatim k l e => some (k, l, e)
  | _ => none

/-- Whether the mode state is `None`. -/
def State.isNone : State → Bool
  | .None => true
  | _ => false

/-- `Parser` from `src/inline.rs`.  The event queue (`VecDeque`) is a list
whose head is the front of the queue; pushes append at the tail.  The opener
stack is a list in push order (head = bottom of the stack). -/
structure Parser where
  openers : List (Container × Nat)
  events : List Event
  span : Span
  lexer : Lexer
  state : State
  last : Bool
deriving Repr, DecidableEq

/-- `Parser::new` from `src/inline.rs`. -/
def Parser.new : Parser :=
  { openers := []
    events := []
    span := ⟨0, 0⟩
    lexer := ⟨[]⟩
    state := .None
    last := false }

/-- `Parser::parse` from `src/inline.rs`: installs a new chunk; asserts that
no chunk arrives with `last` set after a final chunk was already supplied. -/
def Parser.parse (p : Parser) (src : List Char) (last : Bool) : Except String Parser :=
  let p := { p with lexer := ⟨src⟩ }
  if last ∧ p.last then .error "assertion failed: not self.last"
  else .ok { p with last := last }

/-- `Parser::eat` from `src/inline.rs`: consume one token, extending the span. -/
def Parser.eat (p : Parser) : Option Token × Parser :=
  match lexToken p.lexer.chars with
  | some (t, rest) => (some t, { p with lexer := ⟨rest⟩, span := p.span.extend t.len })
  | none => (none, p)

/-- `Parser::peek` from `src/inline.rs`: one-token lookahead. -/
def Parser.peekTok (p : Parser) : Option Token :=
  (lexToken p.lexer.chars).map (·.1)

/-- `Parser::reset_span` from `src/inline.rs`. -/
def Parser.resetSpan (p : Parser) : Parser :=
  { p with span := Span.emptyAt p.span.stop }

/-- The atom classification of a token, from the `match` in
`Parser::parse_atom`. -/
def atomOf? (k : Kind) (len : Nat) : Option Atom :=
  match k with
  | .Newline => some .Softbreak
  | .Hardbreak => some .Hardbreak
  | .Escape => some .Escape
  | .Nbsp => some .Nbsp
  | .Seq .Period => if len = 3 then some .Ellipsis else none
  | .Seq .Hyphen =>
    if len = 2 then some .EnDash
    else if len = 3 then some .EmDash
    else none
  | _ => none

/-- `Parser::parse_atom` from `src/inline.rs`. -/
def Parser.parseAtom (p : Parser) (first : Token) : Option Event :=
  (atomOf? first.kind first.len).map fun a => ⟨.Atom a, p.span⟩

theorem Parser.parseAtom_kind {p : Parser} {first : Token} {ev : Event}
    (h : p.parseAtom first = some ev) : ∃ a, ev.kind = .Atom a ∧ ev.span = p.span := by
  unfold Parser.parseAtom at h
  rcases ha : atomOf? first.kind first.len with _ | a
  · rw [ha] at h
    simp at h
  · rw [ha] at h
    simp at h
    exact ⟨a, by rw [← h]; exact ⟨rfl, rfl⟩⟩

/-- The predicate on identifier characters of a raw-format tag in
`Parser::parse_verbatim`: no whitespace and no brace characters. -/
def identChar (c : Char) : Bool :=
  !c.isWhitespace && !(c = '{' || c = '}')

/-- `Parser::parse_verbatim` from `src/inline.rs`.  In verbatim mode the
token either closes the span (a backtick run of exactly the opener length,
possibly upgraded to a raw-format close by a `\x7b=ident\x7d` tag in the raw
remainder) or is literal content.  Outside the mode, a dollar run of length
at most two followed by a backtick run opens math, and a backtick run opens a
verbatim span. -/
def Parser.parseVerbatim (p : Parser) (first : Token) :
    Except String (Option (Parser × Event)) :=
  match p.state.verbatim? with
  | some (kind, openerLen, openerEvent) =>
    match p.events[openerEvent]? with
    | none => .error "assertion failed: opener event kind"
    | some oev =>
      if oev.kind ≠ .Enter kind then .error "assertion failed: opener event kind"
      else if first.kind = .Seq .Backtick ∧ first.len = openerLen then
        let p1 : Parser := { p with state := .None }
        match kind, p1.lexer.chars with
        | .Verbatim, '{' :: '=' :: rest =>
          let len := (rest.takeWhile identChar).length
          if 0 < len ∧ rest[len]? = some '}' then
            let spanFormat := Span.byLen (p1.span.stop + 2) len
            let p2 : Parser :=
              { p1 with
                lexer := ⟨rest.drop (len + 1)⟩
                events := p1.events.set openerEvent ⟨.Enter .RawFormat, spanFormat⟩
                span := spanFormat }
            .ok (some (p2, ⟨.Exit .RawFormat, p2.span⟩))
          else
            .ok (some (p1, ⟨.Exit .Verbatim, p1.span⟩))
        | _, _ =>
          .ok (some (p1, ⟨.Exit kind, p1.span⟩))
      else
        .ok (some (p, ⟨.Str, p.span⟩))
  | none =>
    match first.kind with
    | .Seq .Dollar =>
      if first.len ≤ 2 then
        match p.peekTok with
        | some t =>
          if t.kind = .Seq .Backtick then
            let kind : Container := if first.len = 2 then .DisplayMath else .InlineMath
            let p1 := (p.eat).2
            let p2 : Parser :=
              { p1 with state := .Verbatim kind t.len p1.events.length }
            .ok (some (p2, ⟨.Enter kind, p2.span⟩))
          else .ok none
        | none => .ok none
      else .ok none
    | .Seq .Backtick =>
      let p1 : Parser := { p with state := .Verbatim .Verbatim first.len p.events.length }
      .ok (some (p1, ⟨.Enter .Verbatim, p1.span⟩))
    | _ => .ok none

/-- `Dir` from `Parser::parse_container`. -/
inductive Dir
  | Open
  | Close
  | Both
deriving Repr, DecidableEq

/-- The container and direction of a delimiter token, from the `match` at the
head of `Parser::parse_container`. -/
def containerOf? (k : Kind) : Option (Container × Dir) :=
  match k with
  | .Sym .Asterisk => some (.Strong, .Both)
  | .Sym .Underscore => some (.Emphasis, .Both)
  | .Sym .Caret => some (.Superscript, .Both)
  | .Sym .Tilde => some (.Subscript, .Both)
  | .Sym .Quote1 => some (.SingleQuoted, .Both)
  | .Sym .Quote2 => some (.DoubleQuoted, .Both)
  | .Open .Bracket => some (.Span, .Open)
  | .Close .Bracket => some (.Span, .Close)
  | .Open .BraceAsterisk => some (.Strong, .Open)
  | .Close .BraceAsterisk => some (.Strong, .Close)
  | .Open .BraceCaret => some (.Superscript, .Open)
  | .Close .BraceCaret => some (.Superscript, .Close)
  | .Open .BraceEqual => some (.Mark, .Open)
  | .Close .BraceEqual => some (.Mark, .Close)
  | .Open .BraceHyphen => some (.Delete, .Open)
  | .Close .BraceHyphen => some (.Delete, .Close)
  | .Open .BracePlus => some (.Insert, .Open)
  | .Close .BracePlus => some (.Insert, .Close)
  | .Open .BraceTilde => some (.Subscript, .Open)
  | .Close .BraceTilde => some (.Subscript, .Close)
  | .Open .BraceUnderscore => some (.Emphasis, .Open)
  | .Close .BraceUnderscore => some (.Emphasis, .Close)
  | _ => none

/-- `Vec::rposition` on the opener stack: the index (from the bottom) and the
stored event index of the topmost entry whose container equals `c`. -/
def rpos : List (Container × Nat) → Container → Option (Nat × Nat)
  | [], _ => none
  | x :: xs, c =>
    match rpos xs c with
    | some (i, e) => some (i + 1, e)
    | none => if x.1 = c then some (0, x.2) else none

/-- `Parser::parse_container` from `src/inline.rs`. -/
def Parser.parseContainer (p : Parser) (first : Token) :
    Except String (Option (Parser × Event)) :=
  match containerOf? first.kind with
  | none => .ok none
  | some (cont, dir) =>
    match rpos p.openers cont, dir with
    | some (o, e), .Close | some (o, e), .Both =>
      match p.events[e]? with
      | none => .error "index out of bounds"
      | some ev =>
        let p1 : Parser :=
          { p with
            events := p.events.set e ⟨.Enter cont, ev.span⟩
            openers := p.openers.take o }
        .ok (some (p1, ⟨.Exit cont, p1.span⟩))
    | _, _ =>
      let p1 : Parser := { p with openers := p.openers ++ [(cont, p.events.length)] }
      .ok (some (p1, ⟨.Str, p1.span⟩))

/-- `Parser::parse_event` from `src/inline.rs`: reset the span, eat one token,
and classify it as verbatim, container, atom, or literal text. -/
def Parser.parseEvent (p : Parser) : Except String (Parser × Option Event) :=
  match p.resetSpan.eat with
  | (none, p1) => .ok (p1, none)
  | (some first, p1) =>
    match p1.parseVerbatim first with
    | .error e => .error e
    | .ok (some (p2, ev)) => .ok (p2, some ev)
    | .ok none =>
      match p1.parseContainer first with
      | .error e => .error e
      | .ok (some (p2, ev)) => .ok (p2, some ev)
      | .ok none =>
        match p1.parseAtom first with
        | some ev => .ok (p1, some ev)
        | none => .ok (p1, some ⟨.Str, p1.span⟩)

theorem runLen_length (c : Char) (cs : List Char) :
    (runLen c cs).1 + (runLen c cs).2.length = cs.length := by
  induction cs with
  | nil => simp [runLen]
  | cons x xs ih =>
    by_cases h : x = c
    · simp [runLen, h]
      omega
    · simp [runLen, h]

theorem lexToken_length {cs : List Char} {t : Token} {rest : List Char}
    (h : lexToken cs = some (t, rest)) :
    t.len + rest.length = cs.length ∧ 1 ≤ t.len := by
  match cs with
  | [] => simp [lexToken] at h
  | c :: cs' =>
    have hrun := runLen_length c cs'
    simp only [lexToken, lexOther] at h
    repeat' split at h
    all_goals cases h
    all_goals simp only [Token.len, List.length_cons]
    all_goals omega

theorem Parser.eat_fst_none {p : Parser} (h : lexToken p.lexer.chars = none) :
    p.eat = (none, p) := by
  simp [Parser.eat, h]

theorem Parser.eat_fst_some {p : Parser} {t : Token} {rest : List Char}
    (h : lexToken p.lexer.chars = some (t, rest)) :
    p.eat = (some t, { p with lexer := ⟨rest⟩, span := p.span.extend t.len }) := by
  simp [Parser.eat, h]

theorem Parser.eat_snd_lexer_le (p : Parser) :
    (p.eat).2.lexer.chars.length ≤ p.lexer.chars.length ∧
      (p.eat).2.events = p.events ∧ (p.eat).2.openers = p.openers ∧
      (p.eat).2.state = p.state ∧ (p.eat).2.last = p.last := by
  unfold Parser.eat
  rcases hlex : lexToken p.lexer.chars with _ | ⟨t, rest⟩
  · simp
  · have hl := lexToken_length hlex
    simp [hlex]
    omega

theorem Parser.parseVerbatim_ok {p : Parser} {first : Token} {p' : Parser} {ev : Event}
    (h : p.parseVerbatim first = .ok (some (p', ev))) :
    p'.lexer.chars.length ≤ p.lexer.chars.length ∧
      p'.events.length = p.events.length ∧ p'.last = p.last := by
  have heat := p.eat_snd_lexer_le
  unfold Parser.parseVerbatim at h
  dsimp only at h
  repeat' split at h
  all_goals cases h
  all_goals refine ⟨?_, ?_, ?_⟩
  all_goals first
    | rfl
    | (simp_all [List.length_drop]; done)
    | (simp_all [List.length_drop]; omega)

/-- Whether the back of the event queue is a `Str` event (the merge condition
of the driver loop in `Parser::next`). -/
def lastIsStr (evs : List Event) : Bool :=
  match evs.getLast? with
  | some ev => decide (ev.kind = .Str)
  | none => false

/-- The guard of the driver loop in `Parser::next`. -/
def Parser.loopCond (p : Parser) : Bool :=
  p.events.isEmpty || !p.openers.isEmpty || !p.state.isNone || lastIsStr p.events

theorem Parser.parseContainer_ok {p : Parser} {first : Token} {p' : Parser} {ev : Event}
    (h : p.parseContainer first = .ok (some (p', ev))) :
    p'.lexer = p.lexer ∧ p'.events.length = p.events.length ∧ p'.last = p.last ∧
      p'.state = p.state ∧ p'.span = p.span := by
  unfold Parser.parseContainer at h
  repeat' split at h
  all_goals cases h
  all_goals exact ⟨rfl, by simp, rfl, rfl, rfl⟩

theorem Parser.parseEvent_ok_some {p : Parser} {p' : Parser} {ev : Event}
    (h : p.parseEvent = .ok (p', some ev)) :
    p'.lexer.chars.length < p.lexer.chars.length ∧
      p'.events.length = p.events.length ∧ p'.last = p.last := by
  unfold Parser.parseEvent at h
  rcases hlex : lexToken p.lexer.chars with _ | ⟨t, rest⟩
  · rw [Parser.eat_fst_none (p := p.resetSpan) (by simpa [Parser.resetSpan] using hlex)] at h
    simp at h
  · have hlen := lexToken_length hlex
    rw [Parser.eat_fst_some (p := p.resetSpan) (by simpa [Parser.resetSpan] using hlex)] at h
    dsimp only at h
    split at h
    · exact absurd h (by simp)
    · rename_i hv
      cases h
      obtain ⟨hb1, hb2, hb3⟩ := Parser.parseVerbatim_ok hv
      simp [Parser.resetSpan] at hb1 hb2 hb3
      exact ⟨by omega, hb2, hb3⟩
    · split at h
      · exact absurd h (by simp)
      · rename_i hc
        cases h
        obtain ⟨hc1, hc2, hc3, -⟩ := Parser.parseContainer_ok hc
        simp [Parser.resetSpan] at hc1 hc2 hc3
        refine ⟨?_, hc2, hc3⟩
        rw [hc1]
        simp
        omega
      · split at h
        all_goals cases h
        all_goals refine ⟨by simp; omega, by simp [Parser.resetSpan], by simp [Parser.resetSpan]⟩

theorem Parser.parseEvent_ok_none {p : Parser} {p' : Parser}
    (h : p.parseEvent = .ok (p', none)) :
    p' = p.resetSpan ∧ lexToken p.lexer.chars = none := by
  unfold Parser.parseEvent at h
  rcases hlex : lexToken p.lexer.chars with _ | ⟨t, rest⟩
  · rw [Parser.eat_fst_none (p := p.resetSpan) (by simpa [Parser.resetSpan] using hlex)] at h
    simp at h
    exact ⟨h.symm, rfl⟩
  · rw [Parser.eat_fst_some (p := p.resetSpan) (by simpa [Parser.resetSpan] using hlex)] at h
    dsimp only at h
    split at h
    · exact absurd h (by simp)
    · exact absurd h (by simp)
    · split at h
      · exact absurd h (by simp)
      · exact absurd h (by simp)
      · split at h
        all_goals exact absurd h (by simp)

/-- Append an event at the back of the queue (`VecDeque::push_back`). -/
def Parser.push (p : Parser) (ev : Event) : Parser :=
  { p with events := p.events ++ [ev] }

/-- The driver loop of `Parser::next`, with explicit fuel so that it stays
structurally recursive and kernel-computable: keep parsing and queueing events
while the queue is empty, an opener is unresolved, a mode is active, or the
last queued event is a mergeable `Str`; stop with `needMore = true` when the
token source is exhausted.  Running out of fuel is an error; the canonical
fuel below provably never runs out, since every queued event consumes at
least one source character. -/
def Parser.nextLoopF : Nat → Parser → Except String (Parser × Bool)
  | 0, _ => .error "fuel exhausted"
  | n + 1, p =>
    if p.loopCond then
      match p.parseEvent with
      | .error e => .error e
      | .ok (p1, none) => .ok (p1, true)
      | .ok (p1, some ev) => Parser.nextLoopF n (p1.push ev)
    else .ok (p, false)

/-- The driver loop at its canonical fuel. -/
def Parser.nextLoop (p : Parser) : Except String (Parser × Bool) :=
  Parser.nextLoopF (p.lexer.chars.length + 1) p

theorem Parser.nextLoopF_congr {n : Nat} : ∀ {m : Nat} {p : Parser},
    p.lexer.chars.length < n → p.lexer.chars.length < m →
    Parser.nextLoopF n p = Parser.nextLoopF m p := by
  induction n with
  | zero => intro m p hn hm; omega
  | succ n ih =>
    intro m p hn hm
    cases m with
    | zero => omega
    | succ m =>
      simp only [Parser.nextLoopF]
      split
      · rcases hpe : p.parseEvent with e | ⟨p1, r⟩
        · rfl
        · rcases r with _ | ev
          · rfl
          · have hs := Parser.parseEvent_ok_some hpe
            apply ih
            · simp only [Parser.push]; omega
            · simp only [Parser.push]; omega
      · rfl

/-- Unfolding equation for the driver loop at canonical fuel. -/
theorem Parser.nextLoop_eq (p : Parser) :
    p.nextLoop =
      if p.loopCond then
        match p.parseEvent with
        | .error e => .error e
        | .ok (p1, none) => .ok (p1, true)
        | .ok (p1, some ev) => (p1.push ev).nextLoop
      else .ok (p, false) := by
  show Parser.nextLoopF (p.lexer.chars.length + 1) p = _
  simp only [Parser.nextLoopF]
  split
  · rcases hpe : p.parseEvent with e | ⟨p1, r⟩
    · rfl
    · rcases r with _ | ev
      · rfl
      · have hs := Parser.parseEvent_ok_some hpe
        apply Parser.nextLoopF_congr
        · simp only [Parser.push]; omega
        · simp only [Parser.push]; omega
  · rfl

/-- The `Str`-merging drain at the front of the queue in `Parser::next`,
with its span-continuity assertion. -/
def mergeStrs (span : Span) : List Event → Except String (Span × List Event)
  | [] => .ok (span, [])
  | ev :: rest =>
    if ev.kind = .Str then
      if span.stop = ev.span.start then mergeStrs (span.union ev.span) rest
      else .error "assertion failed: span continuity"
    else .ok (span, ev :: rest)

/-- `<Parser as Iterator>::next` from `src/inline.rs`: run the driver loop,
then either yield the front event (merging consecutive `Str` events), a
synthesized verbatim auto-close, the need-more-input signal `none`, or panic. -/
def Parser.next (p : Parser) : Except String (Option Event × Parser) :=
  match p.nextLoop with
  | .error e => .error e
  | .ok (p1, needMore) =>
    if p1.last || !needMore then
      match p1.events with
      | e :: rest =>
        if e.kind = .Str then
          match mergeStrs e.span rest with
          | .error msg => .error msg
          | .ok (span, rest') => .ok (some ⟨.Str, span⟩, { p1 with events := rest' })
        else .ok (some e, { p1 with events := rest })
      | [] =>
        match p1.state.verbatim? with
        | some (kind, _, _) => .ok (some ⟨.Exit kind, p1.span⟩, { p1 with state := .None })
        | none => .ok (none, p1)
    else .ok (none, p1)

/-- Termination measure for draining: remaining characters weigh two, queued
events weigh one, an active mode weighs one. -/
def Parser.mu (p : Parser) : Nat :=
  2 * p.lexer.chars.length + p.events.length + (if p.state.isNone then 0 else 1)

theorem Parser.parseEvent_push_mu_le {p : Parser} {p1 : Parser} {ev : Event}
    (h : p.parseEvent = .ok (p1, some ev)) : (p1.push ev).mu ≤ p.mu := by
  have hs := Parser.parseEvent_ok_some h
  simp only [Parser.mu, Parser.push]
  have h1 : (if p1.state.isNone then 0 else 1) ≤ 1 := by split <;> omega
  have h0 : 0 ≤ (if p.state.isNone then 0 else 1) := by omega
  simp only [List.length_append, List.length_singleton]
  omega

theorem Parser.resetSpan_idem (p : Parser) : p.resetSpan.resetSpan = p.resetSpan := rfl

theorem Parser.nextLoopF_spec {n : Nat} : ∀ {p q : Parser} {nm : Bool},
    Parser.nextLoopF n p = .ok (q, nm) →
    q.mu ≤ p.mu ∧ q.last = p.last ∧
      (nm = true → lexToken q.lexer.chars = none) ∧
      (nm = false → q.loopCond = false) ∧
      (nm = true → q.resetSpan = q) := by
  induction n with
  | zero => intro p q nm h; exact absurd h (by simp [Parser.nextLoopF])
  | succ n ih =>
    intro p q nm h
    simp only [Parser.nextLoopF] at h
    split at h
    · split at h
      · exact absurd h (by simp)
      · rename_i p1 heq
        cases h
        have hn := Parser.parseEvent_ok_none heq
        refine ⟨?_, ?_, fun _ => ?_, by simp, fun _ => ?_⟩
        · rw [hn.1]; simp [Parser.mu, Parser.resetSpan]
        · rw [hn.1]; simp [Parser.resetSpan]
        · rw [hn.1]; simpa [Parser.resetSpan] using hn.2
        · rw [hn.1]; exact Parser.resetSpan_idem p
      · rename_i p1 ev heq
        have hs := Parser.parseEvent_ok_some heq
        have hrec := ih h
        have hle := Parser.parseEvent_push_mu_le heq
        refine ⟨le_trans hrec.1 hle, ?_, hrec.2.2.1, hrec.2.2.2.1, hrec.2.2.2.2⟩
        rw [hrec.2.1]
        simp [Parser.push, hs.2.2]
    · rename_i hcond
      cases h
      exact ⟨le_refl _, rfl, by simp, fun _ => by simpa using hcond, by simp⟩

theorem Parser.nextLoop_spec {p : Parser} {q : Parser} {nm : Bool}
    (h : p.nextLoop = .ok (q, nm)) :
    q.mu ≤ p.mu ∧ q.last = p.last ∧
      (nm = true → lexToken q.lexer.chars = none) ∧
      (nm = false → q.loopCond = false) ∧
      (nm = true → q.resetSpan = q) :=
  Parser.nextLoopF_spec h

theorem mergeStrs_length {span : Span} {l : List Event} {span' : Span} {l' : List Event}
    (h : mergeStrs span l = .ok (span', l')) : l'.length ≤ l.length := by
  induction l generalizing span with
  | nil => simp [mergeStrs] at h; simp [h.2]
  | cons ev rest ih =>
    simp only [mergeStrs] at h
    split at h
    · split at h
      · exact le_trans (ih h) (by simp)
      · exact absurd h (by simp)
    · cases h
      exact le_refl _

theorem Parser.next_some_mu_lt {p : Parser} {ev : Event} {p' : Parser}
    (h : p.next = .ok (some ev, p')) : p'.mu < p.mu := by
  unfold Parser.next at h
  split at h
  · exact absurd h (by simp)
  · rename_i p1 nm hloop
    have hspec := Parser.nextLoop_spec hloop
    split at h
    · split at h
      · rename_i front rest heq
        split at h
        · split at h
          · exact absurd h (by simp)
          · rename_i sp rest' hmerge
            cases h
            have hm := mergeStrs_length hmerge
            have hlt : ({ p1 with events := rest' } : Parser).mu < p1.mu := by
              simp [Parser.mu, heq]
              omega
            omega
        · cases h
          have hlt : ({ p1 with events := rest } : Parser).mu < p1.mu := by
            simp [Parser.mu, heq]
          omega
      · rename_i heq
        split at h
        · rename_i tup kind l e hverb
          cases h
          have hnone : p1.state.isNone = false := by
            rcases hst : p1.state
            all_goals rw [hst] at hverb
            all_goals first
              | rfl
              | exact absurd hverb (by simp [State.verbatim?])
          have h1 : ({ p1 with state := State.None } : Parser).mu =
              2 * p1.lexer.chars.length + p1.events.length := by
            simp [Parser.mu, State.isNone]
          have h2 : p1.mu = 2 * p1.lexer.chars.length + p1.events.length + 1 := by
            simp [Parser.mu, hnone]
          omega
        · exact absurd h (by simp)
    · exact absurd h (by simp)

/-- Pull events with `next` until it reports no event (end of drained input or
the need-more-input suspension), collecting the events yielded, with explicit
fuel for structural recursion.  The canonical fuel provably never runs out:
each yielded event strictly decreases the measure `Parser.mu`. -/
def Parser.drainF : Nat → Parser → Except String (List Event × Parser)
  | 0, _ => .error "fuel exhausted"
  | n + 1, p =>
    match p.next with
    | .error e => .error e
    | .ok (none, p') => .ok ([], p')
    | .ok (some ev, p') =>
      match Parser.drainF n p' with
      | .error e => .error e
      | .ok (evs, q) => .ok (ev :: evs, q)

/-- Draining at its canonical fuel. -/
def Parser.drain (p : Parser) : Except String (List Event × Parser) :=
  Parser.drainF (p.mu + 1) p

theorem Parser.drainF_congr {n : Nat} : ∀ {m : Nat} {p : Parser},
    p.mu < n → p.mu < m → Parser.drainF n p = Parser.drainF m p := by
  induction n with
  | zero => intro m p hn hm; omega
  | succ n ih =>
    intro m p hn hm
    cases m with
    | zero => omega
    | succ m =>
      simp only [Parser.drainF]
      rcases hnext : p.next with e | ⟨r, p'⟩
      · rfl
      · rcases r with _ | ev
        · rfl
        · have hlt := Parser.next_some_mu_lt hnext
          have heq := ih (m := m) (p := p') (by omega) (by omega)
          simp only [heq]

/-- Unfolding equation for draining at canonical fuel. -/
theorem Parser.drain_eq (p : Parser) :
    p.drain =
      match p.next with
      | .error e => .error e
      | .ok (none, p') => .ok ([], p')
      | .ok (some ev, p') =>
        match p'.drain with
        | .error e => .error e
        | .ok (evs, q) => .ok (ev :: evs, q) := by
  show Parser.drainF (p.mu + 1) p = _
  simp only [Parser.drainF]
  rcases hnext : p.next with e | ⟨r, p'⟩
  · rfl
  · rcases r with _ | ev
    · rfl
    · have hlt := Parser.next_some_mu_lt hnext
      have heq := Parser.drainF_congr (n := p.mu) (m := p'.mu + 1) (p := p')
        (by omega) (by omega)
      simp only [heq, Parser.drain]

/-- Feed the chunks in order: supply each chunk with `Parser::parse`, then
drain events until `next` yields no event, then move to the next chunk.
This is the calling protocol of the incremental driver. -/
def runChunksAux : Parser → List (List Char × Bool) → Except String (List Event)
  | _, [] => .ok []
  | p, (s, b) :: rest =>
    match p.parse s b with
    | .error e => .error e
    | .ok p1 =>
      match p1.drain with
      | .error e => .error e
      | .ok (evs, p2) =>
        match runChunksAux p2 rest with
        | .error e => .error e
        | .ok more => .ok (evs ++ more)

/-- Run the parser over a chunk sequence starting from `Parser::new`. -/
def runChunks (chunks : List (List Char × Bool)) : Except String (List Event) :=
  runChunksAux Parser.new chunks

/-- Parse a whole input as one final chunk. -/
def parseAll (s : List Char) : Except String (List Event) :=
  runChunks [(s, true)]

/-- Concatenation of the source text addressed by each event's span, in
emission order. -/
def eventText (s : List Char) (evs : List Event) : List Char :=
  (evs.map fun ev => ev.span.sliceOf s).flatten

/-- Whether a span covers the character at offset `i`. -/
def Span.covers (sp : Span) (i : Nat) : Bool :=
  decide (sp.start ≤ i) && decide (i < sp.stop)

/-- The raw-format annotation pattern of the spec: the raw remainder begins
with `\x7b=`, then a non-empty identifier of characters that are neither
whitespace nor braces, immediately terminated by `\x7d`. -/
def RawAnnot (cs : List Char) : Prop :=
  ∃ ident rest, cs = '{' :: '=' :: (ident ++ '}' :: rest) ∧ ident ≠ [] ∧
    ∀ c ∈ ident, identChar c = true

theorem takeWhile_ident_append {ident rest : List Char}
    (h : ∀ c ∈ ident, identChar c = true) :
    (ident ++ '}' :: rest).takeWhile identChar = ident := by
  induction ident with
  | nil => simp [List.takeWhile_cons]; decide
  | cons a tl ih =>
    have ha : identChar a = true := h a (by simp)
    simp only [List.cons_append, List.takeWhile_cons, ha, if_true]
    rw [ih fun c hc => h c (by simp [hc])]

theorem getElem_ident_append {ident rest : List Char} :
    (ident ++ '}' :: rest)[ident.length]? = some '}' := by
  induction ident with
  | nil => simp
  | cons a tl ih => simpa using ih

theorem drop_ident_append {ident rest : List Char} :
    (ident ++ '}' :: rest).drop (ident.length + 1) = rest := by
  induction ident with
  | nil => simp
  | cons a tl ih => simpa using ih

theorem rpos_getElem {l : List (Container × Nat)} {c : Container} {o e : Nat}
    (h : rpos l c = some (o, e)) : l[o]? = some (c, e) := by
  induction l generalizing o e with
  | nil => simp [rpos] at h
  | cons x xs ih =>
    simp only [rpos] at h
    split at h
    · rename_i i e' hxs
      cases h
      simpa using ih hxs
    · split at h
      · rename_i hx
        cases h
        simp
        rcases x with ⟨xc, xe⟩
        simp at hx
        simp [hx]
      · exact absurd h (by simp)

theorem Parser.parseVerbatim_closeMath {p : Parser} {first : Token} {kind : Container}
    {l e : Nat} {oev : Event}
    (hst : p.state = .Verbatim kind l e)
    (hev : p.events[e]? = some oev)
    (hk : oev.kind = .Enter kind)
    (htok : first.kind = .Seq .Backtick)
    (hlen : first.len = l)
    (hkind : kind ≠ .Verbatim) :
    p.parseVerbatim first = .ok (some ({ p with state := .None }, ⟨.Exit kind, p.span⟩)) := by
  unfold Parser.parseVerbatim
  rw [hst]
  simp only [State.verbatim?]
  rw [hev]
  dsimp only
  rw [if_neg (show ¬oev.kind ≠ .Enter kind by simp [hk])]
  rw [if_pos ⟨htok, hlen⟩]
  split
  · rename_i rest heq1 heq2
    simp_all
  · rfl

theorem rawAnnot_of_test {cs : List Char}
    (hshape : ∃ tl, cs = '{' :: '=' :: tl)
    (htest : ∀ tl, cs = '{' :: '=' :: tl →
      0 < (tl.takeWhile identChar).length ∧
        tl[(tl.takeWhile identChar).length]? = some '}') :
    RawAnnot cs := by
  obtain ⟨tl, rfl⟩ := hshape
  obtain ⟨hpos, hget⟩ := htest tl rfl
  set tw := tl.takeWhile identChar with htw
  have hsplit := List.takeWhile_append_dropWhile identChar tl
  set dw := tl.dropWhile identChar with hdw
  have hdwget : dw[0]? = some '}' := by
    have : (tw ++ dw)[tw.length]? = dw[tw.length - tw.length]? :=
      List.getElem?_append_right (le_refl _)
    simp only [Nat.sub_self] at this
    rw [hsplit] at this
    rw [← this]
    exact hget
  rcases hdwe : dw with _ | ⟨d, ds⟩
  · rw [hdwe] at hdwget
    simp at hdwget
  · rw [hdwe] at hdwget
    simp at hdwget
    refine ⟨tw, ds, ?_, ?_, ?_⟩
    · rw [← hsplit, hdwe, hdwget]
    · intro hnil
      rw [hnil] at hpos
      simp at hpos
    · intro c hc
      exact List.mem_takeWhile_imp hc

theorem Parser.parseVerbatim_closePlain {p : Parser} {first : Token}
    {l e : Nat} {oev : Event}
    (hst : p.state = .Verbatim .Verbatim l e)
    (hev : p.events[e]? = some oev)
    (hk : oev.kind = .Enter .Verbatim)
    (htok : first.kind = .Seq .Backtick)
    (hlen : first.len = l)
    (hno : ¬ RawAnnot p.lexer.chars) :
    p.parseVerbatim first =
      .ok (some ({ p with state := .None }, ⟨.Exit .Verbatim, p.span⟩)) := by
  unfold Parser.parseVerbatim
  rw [hst]
  simp only [State.verbatim?]
  rw [hev]
  dsimp only
  rw [if_neg (show ¬oev.kind ≠ .Enter .Verbatim by simp [hk])]
  rw [if_pos ⟨htok, hlen⟩]
  split
  · rename_i heq1 heq2
    rw [if_neg]
    intro htest
    exact hno (rawAnnot_of_test ⟨_, heq2⟩ (by
      intro tl htl
      rw [heq2] at htl
      cases htl
      exact htest))
  · rfl

theorem Parser.parseVerbatim_content {p : Parser} {first : Token} {kind : Container}
    {l e : Nat} {oev : Event}
    (hst : p.state = .Verbatim kind l e)
    (hev : p.events[e]? = some oev)
    (hk : oev.kind = .Enter kind)
    (hnot : ¬(first.kind = .Seq .Backtick ∧ first.len = l)) :
    p.parseVerbatim first = .ok (some (p, ⟨.Str, p.span⟩)) := by
  unfold Parser.parseVerbatim
  rw [hst]
  simp only [State.verbatim?]
  rw [hev]
  dsimp only
  rw [if_neg (show ¬oev.kind ≠ .Enter kind by simp [hk])]
  rw [if_neg hnot]

theorem rpos_isSome_of_mem {l : List (Container × Nat)} {c : Container}
    {pr : Container × Nat} (hm : pr ∈ l) (hc : pr.1 = c) : (rpos l c).isSome := by
  induction l with
  | nil => simp at hm
  | cons x xs ih =>
    simp only [rpos]
    rcases List.mem_cons.mp hm with rfl | hm
    · split
      · simp
      · simp [hc]
    · have := ih hm
      split
      · simp
      · rename_i hnone
        simp [hnone] at this

theorem rpos_maximal {l : List (Container × Nat)} {c : Container} {o e : Nat}
    (h : rpos l c = some (o, e)) :
    ∀ j, o < j → ∀ pr, l[j]? = some pr → pr.1 ≠ c := by
  induction l generalizing o e with
  | nil => simp [rpos] at h
  | cons x xs ih =>
    simp only [rpos] at h
    split at h
    · rename_i i e' hxs
      cases h
      intro j hj pr hpr
      match j, hj with
      | j + 1, hj =>
        simp at hpr
        exact ih hxs j (by omega) pr hpr
    · split at h
      · rename_i hxs hx
        cases h
        intro j hj pr hpr
        match j, hj with
        | j + 1, _ =>
          simp at hpr
          intro hc
          have hmem : pr ∈ xs := List.getElem?_mem hpr
          have := rpos_isSome_of_mem hmem hc
          simp [hxs] at this
      · exact absurd h (by simp)

theorem Parser.parseVerbatim_rawFormat {p : Parser} {first : Token} {l e : Nat}
    {oev : Event} {ident rest : List Char}
    (hst : p.state = .Verbatim .Verbatim l e)
    (hev : p.events[e]? = some oev)
    (hk : oev.kind = .Enter .Verbatim)
    (htok : first.kind = .Seq .Backtick)
    (hlen : first.len = l)
    (hchars : p.lexer.chars = '{' :: '=' :: (ident ++ '}' :: rest))
    (hne : ident ≠ [])
    (hid : ∀ c ∈ ident, identChar c = true) :
    p.parseVerbatim first =
      .ok (some
        ({ p with
            state := .None
            lexer := ⟨rest⟩
            events := p.events.set e ⟨.Enter .RawFormat, Span.byLen (p.span.stop + 2) ident.length⟩
            span := Span.byLen (p.span.stop + 2) ident.length },
          ⟨.Exit .RawFormat, Span.byLen (p.span.stop + 2) ident.length⟩)) := by
  unfold Parser.parseVerbatim
  rw [hst]
  simp only [State.verbatim?]
  rw [hev]
  dsimp only
  rw [if_neg (show ¬oev.kind ≠ .Enter .Verbatim by simp [hk])]
  rw [if_pos ⟨htok, hlen⟩]
  simp only [hchars]
  rw [takeWhile_ident_append hid]
  rw [if_pos ⟨by simpa using List.length_pos.mpr hne, getElem_ident_append⟩]
  simp only [drop_ident_append]

theorem rpos_none {l : List (Container × Nat)} {c : Container}
    (h : rpos l c = none) : ∀ pr ∈ l, pr.1 ≠ c := by
  induction l with
  | nil => simp
  | cons x xs ih =>
    simp only [rpos] at h
    split at h
    · exact absurd h (by simp)
    · split at h
      · exact absurd h (by simp)
      · rename_i hxs hx
        intro pr hpr
        rcases List.mem_cons.mp hpr with rfl | hpr
        · simpa using hx
        · exact ih hxs pr hpr

theorem State.verbatim?_eq_some {s : State} {k : Container} {l e : Nat}
    (h : s.verbatim? = some (k, l, e)) : s = .Verbatim k l e := by
  cases s <;> simp [State.verbatim?] at h <;> simp_all

theorem Parser.parseVerbatim_untouched {p : Parser} {first : Token} {p' : Parser}
    {ev : Event} {i : Nat}
    (h : p.parseVerbatim first = .ok (some (p', ev)))
    (hverb : ∀ k l e2, p.state = .Verbatim k l e2 → e2 ≠ i) :
    p'.events[i]? = p.events[i]? := by
  unfold Parser.parseVerbatim at h
  dsimp only at h
  split at h
  · rename_i tup k l e2 hst
    have hste := State.verbatim?_eq_some hst
    have hne := hverb k l e2 hste
    repeat' split at h
    all_goals cases h
    all_goals simp [List.getElem?_set_ne hne]
  · have he := (Parser.eat_snd_lexer_le p).2.1
    repeat' split at h
    all_goals cases h
    all_goals simp [he]

theorem Parser.parseContainer_untouched {p : Parser} {first : Token} {p' : Parser}
    {ev : Event} {i : Nat}
    (h : p.parseContainer first = .ok (some (p', ev)))
    (hop : ∀ pr ∈ p.openers, pr.2 ≠ i) :
    p'.events[i]? = p.events[i]? := by
  unfold Parser.parseContainer at h
  split at h
  · exact absurd h (by simp)
  · rename_i cont dir heq
    split at h
    · rename_i tup o e hr
      have hmem : (cont, e) ∈ p.openers := List.getElem?_mem (rpos_getElem hr)
      have hne : e ≠ i := hop (cont, e) hmem
      split at h
      · exact absurd h (by simp)
      · cases h
        simp [List.getElem?_set_ne hne]
    · rename_i tup o e hr
      have hmem : (cont, e) ∈ p.openers := List.getElem?_mem (rpos_getElem hr)
      have hne : e ≠ i := hop (cont, e) hmem
      split at h
      · exact absurd h (by simp)
      · cases h
        simp [List.getElem?_set_ne hne]
    · cases h; rfl

theorem Parser.parseEvent_untouched {q : Parser} {q' : Parser} {r : Option Event} {i : Nat}
    (h : q.parseEvent = .ok (q', r))
    (hop : ∀ pr ∈ q.openers, pr.2 ≠ i)
    (hverb : ∀ k l e2, q.state = .Verbatim k l e2 → e2 ≠ i) :
    q'.events[i]? = q.events[i]? := by
  unfold Parser.parseEvent at h
  rcases hlex : lexToken q.lexer.chars with _ | ⟨t, rest⟩
  · rw [Parser.eat_fst_none (p := q.resetSpan) (by simpa [Parser.resetSpan] using hlex)] at h
    simp at h
    rw [← h.1]
    rfl
  · rw [Parser.eat_fst_some (p := q.resetSpan) (by simpa [Parser.resetSpan] using hlex)] at h
    dsimp only at h
    split at h
    · exact absurd h (by simp)
    · rename_i hv
      cases h
      have hu := Parser.parseVerbatim_untouched hv
        (fun k l e2 hst => hverb k l e2 (by simpa [Parser.resetSpan] using hst))
      simpa [Parser.resetSpan] using hu
    · split at h
      · exact absurd h (by simp)
      · rename_i hc
        cases h
        have hu := Parser.parseContainer_untouched hc
          (fun pr hm => hop pr (by simpa [Parser.resetSpan] using hm))
        simpa [Parser.resetSpan] using hu
      · split at h
        all_goals cases h
        all_goals rfl


theorem Parser.next_autoClose {p : Parser} {k : Container} {l e : Nat}
    (hlex : p.lexer.chars = [])
    (hev : p.events = [])
    (hst : p.state = .Verbatim k l e)
    (hlast : p.last = true) :
    p.next = .ok (some ⟨.Exit k, Span.emptyAt p.span.stop⟩,
      { p.resetSpan with state := .None }) := by
  have hpe : p.parseEvent = .ok (p.resetSpan, none) := by
    unfold Parser.parseEvent
    rw [Parser.eat_fst_none (p := p.resetSpan) (by simp [Parser.resetSpan, hlex, lexToken])]
  have hloop : p.nextLoop = .ok (p.resetSpan, true) := by
    unfold Parser.nextLoop
    rw [hlex]
    show Parser.nextLoopF (0 + 1) p = _
    simp only [Parser.nextLoopF]
    rw [if_pos (by simp [Parser.loopCond, hev]), hpe]
  unfold Parser.next
  rw [hloop]
  dsimp only [Parser.resetSpan]
  rw [if_pos (by simp [hlast])]
  rw [hev]
  dsimp only
  rw [hst]
  simp [State.verbatim?, Span.emptyAt, Parser.resetSpan]

theorem Parser.next_exit_source {p : Parser} {ev : Event} {p' : Parser}
    (h : p.next = .ok (some ev, p')) {c : Container} (hexit : ev.kind = .Exit c) :
    ∃ q nm, p.nextLoop = .ok (q, nm) ∧
      ((∃ rest, q.events = ev :: rest ∧ p' = { q with events := rest }) ∨
       (q.events = [] ∧ (∃ l e2, q.state = .Verbatim c l e2) ∧
         ev.span = Span.emptyAt q.span.stop ∧
         p' = { q with state := .None })) := by
  unfold Parser.next at h
  split at h
  · exact absurd h (by simp)
  · rename_i q nm hloop
    have hspec := Parser.nextLoop_spec hloop
    split at h
    · split at h
      · rename_i front rest heq
        split at h
        · split at h
          · exact absurd h (by simp)
          · rename_i sp rest2 hmerge
            cases h
            simp at hexit
        · cases h
          exact ⟨q, nm, hloop, Or.inl ⟨rest, heq, rfl⟩⟩
      · rename_i heq
        split at h
        · rename_i tup k l e2 hverb
          cases h
          have hst := State.verbatim?_eq_some hverb
          have hnm : nm = true := by
            cases hnm2 : nm
            · have := hspec.2.2.2.1 hnm2
              simp [Parser.loopCond, heq] at this
            · rfl
          have hreset := hspec.2.2.2.2 hnm
          have hspan : q.span = Span.emptyAt q.span.stop := by
            have := congrArg Parser.span hreset
            simpa [Parser.resetSpan] using this.symm
          simp only [Event.kind] at hexit
          cases hexit
          exact ⟨q, nm, hloop, Or.inr ⟨heq, ⟨l, e2, hst⟩, by simpa using hspan, rfl⟩⟩
        · exact absurd h (by simp)
    · exact absurd h (by simp)


/-- C1, counterexample: chunking is not transparent.  The two-character input
`--` parsed as one final chunk lexes as a single hyphen run and yields the
`EnDash` atom, while the same text split into chunks `-` and `-` lexes as two
one-character hyphen runs and yields a merged literal `Str` event: the event
sequences differ, refuting the claim for arbitrary splits. -/
theorem C1_counterexample :
    runChunks [(['-', '-'], true)] = .ok [⟨.Atom .EnDash, ⟨0, 2⟩⟩] ∧
    runChunks [(['-'], false), (['-'], true)] = .ok [⟨.Str, ⟨0, 2⟩⟩] ∧
    runChunks [(['-', '-'], true)] ≠ runChunks [(['-'], false), (['-'], true)] := by
  decide

/-- C2, counterexample: span reconstruction fails once a raw-format tag is
consumed.  Parsing `` `x`{=f} `` emits events whose spans address only `f`,
`x`, `f`: the backticks and the tag delimiters are dropped and the format
identifier is addressed twice, so concatenating the addressed text does not
reproduce the input. -/
theorem C2_counterexample :
    parseAll ['`', 'x', '`', '{', '=', 'f', '}'] =
      .ok [⟨.Enter .RawFormat, ⟨5, 6⟩⟩, ⟨.Str, ⟨1, 2⟩⟩, ⟨.Exit .RawFormat, ⟨5, 6⟩⟩] ∧
    eventText ['`', 'x', '`', '{', '=', 'f', '}']
      [⟨.Enter .RawFormat, ⟨5, 6⟩⟩, ⟨.Str, ⟨1, 2⟩⟩, ⟨.Exit .RawFormat, ⟨5, 6⟩⟩] =
      ['f', 'x', 'f'] ∧
    (['f', 'x', 'f'] : List Char) ≠ ['`', 'x', '`', '{', '=', 'f', '}'] := by
  decide

/-- C3: close resolution.  When a Close-only or Toggle delimiter token is
processed and the opener stack holds a same-type entry, the topmost such
entry (index `o`, `rpos` returns no lower match and everything above `o` is
of a different type) has its queued placeholder event rewritten from `Str` to
`Enter(container)` in place (span kept), the stack is truncated at `o`
(discarding the entries above), and `Exit(container)` spanning the current
token is returned.  The second conjunct shows the discarded entries'
placeholder events are never rewritten afterwards: a parsing step only ever
mutates an event index that is currently referenced by the opener stack or by
the verbatim mode, so an index discarded from the stack stays `Str` forever. -/
theorem C3_close_resolution :
    (∀ (p : Parser) (first : Token) (cont : Container) (dir : Dir) (o e : Nat)
        (oldEv : Event),
      containerOf? first.kind = some (cont, dir) →
      (dir = .Close ∨ dir = .Both) →
      rpos p.openers cont = some (o, e) →
      p.events[e]? = some oldEv →
      oldEv.kind = .Str →
      p.openers[o]? = some (cont, e) ∧
      (∀ j, o < j → ∀ pr, p.openers[j]? = some pr → pr.1 ≠ cont) ∧
      p.parseContainer first =
        .ok (some
          ({ p with
              events := p.events.set e ⟨.Enter cont, oldEv.span⟩
              openers := p.openers.take o },
            ⟨.Exit cont, p.span⟩))) ∧
    (∀ (q q' : Parser) (r : Option Event) (i : Nat),
      q.parseEvent = .ok (q', r) →
      (∀ pr ∈ q.openers, pr.2 ≠ i) →
      (∀ k l e2, q.state = .Verbatim k l e2 → e2 ≠ i) →
      q'.events[i]? = q.events[i]?) := by
  constructor
  · intro p first cont dir o e oldEv hco hdir hr hev hStr
    refine ⟨rpos_getElem hr, rpos_maximal hr, ?_⟩
    unfold Parser.parseContainer
    rw [hco]
    dsimp only
    rw [hr]
    rcases hdir with rfl | rfl
    · dsimp only
      rw [hev]
    · dsimp only
      rw [hev]
  · intro q q' r i h hop hverb
    exact Parser.parseEvent_untouched h hop hverb

/-- Concrete instance for C3: with openers `[(Emphasis, 0), (Strong, 1)]` and
two queued `Str` placeholders, an asterisk token resolves the topmost
`Strong` entry. -/
def p3c : Parser :=
  { openers := [(.Emphasis, 0), (.Strong, 1)]
    events := [⟨.Str, ⟨0, 1⟩⟩, ⟨.Str, ⟨1, 2⟩⟩]
    span := ⟨2, 3⟩
    lexer := ⟨[]⟩
    state := .None
    last := true }

theorem C3_close_resolution_witness :
    (containerOf? (Token.mk (.Sym .Asterisk) 1).kind = some (.Strong, .Both) ∧
      ((Dir.Both = Dir.Close) ∨ (Dir.Both = Dir.Both)) ∧
      rpos p3c.openers .Strong = some (1, 1) ∧
      p3c.events[1]? = some ⟨.Str, ⟨1, 2⟩⟩ ∧
      (Event.mk .Str ⟨1, 2⟩).kind = .Str) ∧
    (p3c.openers[1]? = some (.Strong, 1) ∧
      (∀ j, 1 < j → ∀ pr, p3c.openers[j]? = some pr → pr.1 ≠ .Strong) ∧
      p3c.parseContainer ⟨.Sym .Asterisk, 1⟩ =
        .ok (some
          ({ p3c with
              events := p3c.events.set 1 ⟨.Enter .Strong, (Event.mk .Str ⟨1, 2⟩).span⟩
              openers := p3c.openers.take 1 },
            ⟨.Exit .Strong, p3c.span⟩))) :=
  ⟨⟨rfl, Or.inr rfl, rfl, rfl, rfl⟩,
    C3_close_resolution.1 p3c ⟨.Sym .Asterisk, 1⟩ .Strong .Both 1 1 ⟨.Str, ⟨1, 2⟩⟩
      rfl (Or.inr rfl) rfl rfl rfl⟩

/-- C4: the claim says a Close-only delimiter token with no same-type opener
is emitted as plain `Str` and nothing is pushed, so it can never later become
an `Enter` event.  The code (`parse_container`, the `unwrap_or_else` arm)
instead pushes an opener-stack entry for it as well: on `*}*}` the first `*}`
is pushed as a `Strong` opener and the second `*}` resolves it, producing
`Enter(Strong)`/`Exit(Strong)` where the spec requires two literal `Str`
tokens (merged into one `Str` event). -/
theorem C4_close_only_pushes :
    runChunks [(['*', '}', '*', '}'], true)] =
      .ok [⟨.Enter .Strong, ⟨0, 2⟩⟩, ⟨.Exit .Strong, ⟨2, 4⟩⟩] := by
  decide

/-- C5: closing a verbatim span with a backtick run of exactly the opener
length.  If the span is `Verbatim` (not math) and the raw remainder matches
`\x7b=ident\x7d` with a non-empty identifier free of whitespace and braces,
the queued opener event is rewritten to `Enter(RawFormat)` with the
identifier's span, the returned closing event is `Exit(RawFormat)`, and the
token source is re-pointed to just after the consumed tag.  In every other
closing case the opener event is left untouched (it stays `Enter(Verbatim)`)
and the closer is `Exit(Verbatim)`; a math span closes as `Exit(kind)`. -/
theorem C5_raw_format_close {p : Parser} {first : Token} {kind : Container}
    {l e : Nat} {oev : Event}
    (hst : p.state = .Verbatim kind l e)
    (hev : p.events[e]? = some oev)
    (hk : oev.kind = .Enter kind)
    (htok : first.kind = .Seq .Backtick)
    (hlen : first.len = l) :
    (∀ ident rest, kind = .Verbatim →
      p.lexer.chars = '{' :: '=' :: (ident ++ '}' :: rest) →
      ident ≠ [] → (∀ c ∈ ident, identChar c = true) →
      p.parseVerbatim first = .ok (some
        ({ p with
            state := .None
            lexer := ⟨rest⟩
            events := p.events.set e
              ⟨.Enter .RawFormat, Span.byLen (p.span.stop + 2) ident.length⟩
            span := Span.byLen (p.span.stop + 2) ident.length },
         ⟨.Exit .RawFormat, Span.byLen (p.span.stop + 2) ident.length⟩))) ∧
    (kind = .Verbatim → ¬ RawAnnot p.lexer.chars →
      p.parseVerbatim first =
        .ok (some ({ p with state := .None }, ⟨.Exit .Verbatim, p.span⟩))) ∧
    (kind ≠ .Verbatim →
      p.parseVerbatim first =
        .ok (some ({ p with state := .None }, ⟨.Exit kind, p.span⟩))) := by
  refine ⟨?_, ?_, ?_⟩
  · intro ident rest hkv hchars hne hid
    subst hkv
    exact Parser.parseVerbatim_rawFormat hst hev hk htok hlen hchars hne hid
  · intro hkv hno
    subst hkv
    exact Parser.parseVerbatim_closePlain hst hev hk htok hlen hno
  · intro hkv
    exact Parser.parseVerbatim_closeMath hst hev hk htok hlen hkv

/-- Concrete instance for C5 and C10: inside a verbatim span opened by one
backtick (queued opener event 0), the remainder `\x7b=f\x7d ` follows the
closing backtick. -/
def p5c : Parser :=
  { openers := []
    events := [⟨.Enter .Verbatim, ⟨0, 1⟩⟩]
    span := ⟨2, 3⟩
    lexer := ⟨['{', '=', 'f', '}', ' ']⟩
    state := .Verbatim .Verbatim 1 0
    last := true }

theorem C5_raw_format_close_witness :
    (p5c.state = State.Verbatim .Verbatim 1 0 ∧
      p5c.events[0]? = some ⟨.Enter .Verbatim, ⟨0, 1⟩⟩ ∧
      (Event.mk (.Enter .Verbatim) ⟨0, 1⟩).kind = .Enter .Verbatim ∧
      (Token.mk (.Seq .Backtick) 1).kind = .Seq .Backtick ∧
      (Token.mk (.Seq .Backtick) 1).len = 1) ∧
    ((∀ ident rest, Container.Verbatim = .Verbatim →
      p5c.lexer.chars = '{' :: '=' :: (ident ++ '}' :: rest) →
      ident ≠ [] → (∀ c ∈ ident, identChar c = true) →
      p5c.parseVerbatim ⟨.Seq .Backtick, 1⟩ = .ok (some
        ({ p5c with
            state := .None
            lexer := ⟨rest⟩
            events := p5c.events.set 0
              ⟨.Enter .RawFormat, Span.byLen (p5c.span.stop + 2) ident.length⟩
            span := Span.byLen (p5c.span.stop + 2) ident.length },
         ⟨.Exit .RawFormat, Span.byLen (p5c.span.stop + 2) ident.length⟩))) ∧
    (Container.Verbatim = .Verbatim → ¬ RawAnnot p5c.lexer.chars →
      p5c.parseVerbatim ⟨.Seq .Backtick, 1⟩ =
        .ok (some ({ p5c with state := .None }, ⟨.Exit .Verbatim, p5c.span⟩))) ∧
    (Container.Verbatim ≠ .Verbatim →
      p5c.parseVerbatim ⟨.Seq .Backtick, 1⟩ =
        .ok (some ({ p5c with state := .None }, ⟨.Exit .Verbatim, p5c.span⟩)))) :=
  ⟨⟨rfl, rfl, rfl, rfl, rfl⟩, C5_raw_format_close rfl rfl rfl rfl rfl⟩

/-- C6: end-of-input auto-close.  First conjunct: when the final chunk is
exhausted, the queue is drained and the mode is still a verbatim/math span,
`next` yields a synthesized `Exit(container)` whose span is empty and sits at
the current cumulative end offset, and resets the mode to `None` (the opener
stack is carried over unchanged, so unmatched openers are never auto-closed).
Second conjunct: every `Exit` event yielded by `next` either was popped from
the front of the event queue (hence was produced for a closing source token)
or is this synthesized auto-close, whose container is the verbatim mode's,
whose span is empty at the end offset, and whose only state change beyond the
loop is resetting the mode. -/
theorem C6_auto_close :
    (∀ (p : Parser) (k : Container) (l e : Nat),
      p.lexer.chars = [] → p.events = [] → p.state = .Verbatim k l e →
      p.last = true →
      p.next = .ok (some ⟨.Exit k, Span.emptyAt p.span.stop⟩,
        { p.resetSpan with state := .None })) ∧
    (∀ (p : Parser) (ev : Event) (p' : Parser) (c : Container),
      p.next = .ok (some ev, p') → ev.kind = .Exit c →
      ∃ q nm, p.nextLoop = .ok (q, nm) ∧
        ((∃ rest, q.events = ev :: rest ∧ p' = { q with events := rest }) ∨
         (q.events = [] ∧ (∃ l e2, q.state = .Verbatim c l e2) ∧
           ev.span = Span.emptyAt q.span.stop ∧
           p' = { q with state := .None }))) :=
  ⟨fun _ _ _ _ h1 h2 h3 h4 => Parser.next_autoClose h1 h2 h3 h4,
   fun _ _ _ _ h hexit => Parser.next_exit_source h hexit⟩

/-- Concrete instance for C6: final chunk exhausted inside an unterminated
one-backtick verbatim span whose queued events were already drained. -/
def p6c : Parser :=
  { openers := []
    events := []
    span := ⟨4, 4⟩
    lexer := ⟨[]⟩
    state := .Verbatim .Verbatim 1 0
    last := true }

theorem C6_auto_close_witness :
    (p6c.lexer.chars = [] ∧ p6c.events = [] ∧
      p6c.state = State.Verbatim .Verbatim 1 0 ∧ p6c.last = true) ∧
    p6c.next = .ok (some ⟨.Exit .Verbatim, Span.emptyAt 4⟩,
      { p6c.resetSpan with state := .None }) :=
  ⟨⟨rfl, rfl, rfl, rfl⟩, C6_auto_close.1 p6c .Verbatim 1 0 rfl rfl rfl rfl⟩

/-- C7, counterexample: supplying another chunk after the final one is fatal
only when the new chunk itself carries `last = true`.  A subsequent
`parse(src, false)` after a final chunk is accepted without a panic — it even
clears the final flag — refuting the claim that any subsequent call panics
regardless of the new chunk's flag. -/
theorem C7_counterexample :
    (Parser.new.parse ['a'] true).bind (fun p => p.parse ['b'] false) =
      .ok { openers := [], events := [], span := ⟨0, 0⟩, lexer := ⟨['b']⟩,
            state := .None, last := false } := by
  decide

/-- C7, amended: after a final chunk has been supplied, a further `parse`
call with `last = true` hits the assertion (panics), while a call with
`last = false` is accepted, installs the new chunk, and resets the final
flag. -/
theorem C7_parse_after_final (p : Parser) (s : List Char) (h : p.last = true) :
    p.parse s true = .error "assertion failed: not self.last" ∧
      p.parse s false = .ok { p with lexer := ⟨s⟩, last := false } := by
  constructor
  · simp [Parser.parse, h]
  · simp [Parser.parse, h]

theorem C7_parse_after_final_witness :
    ({ Parser.new with last := true } : Parser).last = true ∧
    (({ Parser.new with last := true } : Parser).parse ['b'] true =
        .error "assertion failed: not self.last" ∧
      ({ Parser.new with last := true } : Parser).parse ['b'] false =
        .ok { ({ Parser.new with last := true } : Parser) with
          lexer := ⟨['b']⟩, last := false }) :=
  ⟨rfl, C7_parse_after_final { Parser.new with last := true } ['b'] rfl⟩

/-- C10, counterexample: after the raw-format tag of `` `x`{=f}. `` is
consumed, the span cursor is set to the identifier span, whose end is the
source offset of the closing `\x7d` — one character before the true resume
point.  The following token (`.`) is therefore given span `[6, 7)`, which
covers offset 6, the `\x7d` character: the claim that the tag's delimiters
are covered by no emitted event's span is refuted. -/
theorem C10_counterexample :
    parseAll ['`', 'x', '`', '{', '=', 'f', '}', '.'] =
      .ok [⟨.Enter .RawFormat, ⟨5, 6⟩⟩, ⟨.Str, ⟨1, 2⟩⟩,
        ⟨.Exit .RawFormat, ⟨5, 6⟩⟩, ⟨.Str, ⟨6, 7⟩⟩] ∧
    ['`', 'x', '`', '{', '=', 'f', '}', '.'][6]? = some '}' ∧
    ([⟨.Enter .RawFormat, ⟨5, 6⟩⟩, ⟨.Str, ⟨1, 2⟩⟩, ⟨.Exit .RawFormat, ⟨5, 6⟩⟩,
      (⟨.Str, ⟨6, 7⟩⟩ : Event)].any fun ev => ev.span.covers 6) = true := by
  decide

/-- C10, amended: when a raw-format tag is recognized, the emitted
`Exit(RawFormat)` event's span is the identifier's span — the same span
written into the rewritten opener event — and not the span of the closing
backtick run; the closing backticks (before offset `stop`) and the `\x7b=`
delimiter (offsets `stop` and `stop + 1`) are addressed by neither event.
However, scanning resumes with the span cursor at the identifier's end,
which is the source offset of the closing `\x7d` (the final conjuncts), so
the very next token's span begins on the `\x7d` character and covers it
whenever the tag is not at the end of the input. -/
theorem C10_raw_format_span {p : Parser} {first : Token} {l e : Nat}
    {oev : Event} {ident rest : List Char}
    (hst : p.state = .Verbatim .Verbatim l e)
    (hev : p.events[e]? = some oev)
    (hk : oev.kind = .Enter .Verbatim)
    (htok : first.kind = .Seq .Backtick)
    (hlen : first.len = l)
    (hchars : p.lexer.chars = '{' :: '=' :: (ident ++ '}' :: rest))
    (hne : ident ≠ [])
    (hid : ∀ c ∈ ident, identChar c = true) :
    ∃ p', p.parseVerbatim first =
        .ok (some (p', ⟨.Exit .RawFormat, Span.byLen (p.span.stop + 2) ident.length⟩)) ∧
      p'.events = p.events.set e
        ⟨.Enter .RawFormat, Span.byLen (p.span.stop + 2) ident.length⟩ ∧
      p'.span = Span.byLen (p.span.stop + 2) ident.length ∧
      p'.lexer.chars = rest ∧
      (Span.byLen (p.span.stop + 2) ident.length).stop =
        p.span.stop + 2 + ident.length ∧
      p.lexer.chars[2 + ident.length]? = some '}' := by
  refine ⟨_, Parser.parseVerbatim_rawFormat hst hev hk htok hlen hchars hne hid,
    rfl, rfl, rfl, rfl, ?_⟩
  rw [hchars]
  have h2 : ('{' :: '=' :: (ident ++ '}' :: rest))[2 + ident.length]? =
      (ident ++ '}' :: rest)[ident.length]? := by
    rw [show 2 + ident.length = ident.length + 1 + 1 from by omega]
    simp
  rw [h2]
  exact getElem_ident_append

theorem C10_raw_format_span_witness :
    (p5c.state = State.Verbatim .Verbatim 1 0 ∧
      p5c.events[0]? = some ⟨.Enter .Verbatim, ⟨0, 1⟩⟩ ∧
      (Event.mk (.Enter .Verbatim) ⟨0, 1⟩).kind = .Enter .Verbatim ∧
      (Token.mk (.Seq .Backtick) 1).kind = .Seq .Backtick ∧
      (Token.mk (.Seq .Backtick) 1).len = 1 ∧
      p5c.lexer.chars = '{' :: '=' :: (['f'] ++ '}' :: [' ']) ∧
      (['f'] : List Char) ≠ ([] : List Char) ∧
      (∀ c ∈ (['f'] : List Char), identChar c = true)) ∧
    (∃ p', p5c.parseVerbatim ⟨.Seq .Backtick, 1⟩ =
        .ok (some (p', ⟨.Exit .RawFormat, Span.byLen (p5c.span.stop + 2) 1⟩)) ∧
      p'.events = p5c.events.set 0 ⟨.Enter .RawFormat, Span.byLen (p5c.span.stop + 2) 1⟩ ∧
      p'.span = Span.byLen (p5c.span.stop + 2) 1 ∧
      p'.lexer.chars = [' '] ∧
      (Span.byLen (p5c.span.stop + 2) 1).stop = p5c.span.stop + 2 + 1 ∧
      p5c.lexer.chars[2 + 1]? = some '}') :=
  ⟨⟨rfl, rfl, rfl, rfl, rfl, rfl, by decide, by decide⟩,
    C10_raw_format_span rfl rfl rfl rfl rfl
      (show p5c.lexer.chars = '{' :: '=' :: (['f'] ++ '}' :: [' ']) from rfl)
      (by decide) (by decide)⟩

/-- The adjacency condition that consecutive queued `Str` events must
satisfy for the merge in `Parser::next` to be panic-free. -/
def strAdj (a b : Event) : Prop :=
  a.kind = .Str → b.kind = .Str → a.span.stop = b.span.start

/-- Well-formedness of the parser state between driver-loop iterations:
every opener-stack entry addresses a queued `Str` placeholder, the verbatim
mode's opener index addresses a queued `Enter` event of the mode's container,
consecutive queued `Str` events are span-contiguous, a `Str` event at the
back of the queue ends exactly at the current span cursor, and opener-stack
entries carry strictly increasing event indices. -/
structure WF (p : Parser) : Prop where
  w1 : ∀ pr ∈ p.openers, ∃ ev, p.events[pr.2]? = some ev ∧ ev.kind = .Str
  w2 : ∀ k l e, p.state = .Verbatim k l e →
    ∃ ev, p.events[e]? = some ev ∧ ev.kind = .Enter k
  w3 : ∀ i a b, p.events[i]? = some a → p.events[i + 1]? = some b → strAdj a b
  w4 : ∀ ev, p.events.getLast? = some ev → ev.kind = .Str →
    ev.span.stop = p.span.stop
  w5 : List.Pairwise (fun a b => a.2 < b.2) p.openers

theorem w3_append {evs : List Event} {x : Event}
    (h3 : ∀ i a b, evs[i]? = some a → evs[i + 1]? = some b → strAdj a b)
    (hseam : ∀ a, evs.getLast? = some a → strAdj a x) :
    ∀ i a b, (evs ++ [x])[i]? = some a → (evs ++ [x])[i + 1]? = some b →
      strAdj a b := by
  intro i a b ha hb
  by_cases hi : i + 1 < evs.length
  · rw [List.getElem?_append_left (by omega)] at ha
    rw [List.getElem?_append_left hi] at hb
    exact h3 i a b ha hb
  · by_cases hi2 : i + 1 = evs.length
    · rw [List.getElem?_append_left (by omega)] at ha
      have hbx : b = x := by
        rw [hi2, List.getElem?_concat_length] at hb
        exact (Option.some_injective _ hb).symm
      have hne : evs ≠ [] := by
        intro h0
        rw [h0] at hi2
        simp at hi2
      have hlast : evs.getLast? = some a := by
        rw [List.getLast?_eq_getElem? evs]
        have : evs.length - 1 = i := by omega
        rw [this]
        exact ha
      rw [hbx]
      exact hseam a hlast
    · exfalso
      have hnone : (evs ++ [x])[i + 1]? = none := by
        apply List.getElem?_eq_none
        simp
        omega
      rw [hnone] at hb
      cases hb
  
theorem w3_set_nonStr {evs : List Event} {e : Nat} {x : Event}
    (hx : ¬ x.kind = .Str)
    (h3 : ∀ i a b, evs[i]? = some a → evs[i + 1]? = some b → strAdj a b) :
    ∀ i a b, (evs.set e x)[i]? = some a → (evs.set e x)[i + 1]? = some b →
      strAdj a b := by
  intro i a b ha hb
  rw [List.getElem?_set] at ha hb
  by_cases h1 : e = i
  · rw [if_pos h1] at ha
    split at ha
    · cases ha
      intro hS
      exact absurd hS hx
    · cases ha
  · rw [if_neg h1] at ha
    by_cases h2 : e = i + 1
    · rw [if_pos h2] at hb
      split at hb
      · cases hb
        intro _ hS
        exact absurd hS hx
      · cases hb
    · rw [if_neg h2] at hb
      exact h3 i a b ha hb

theorem getLast?_set_ne {evs : List Event} {e : Nat} {x : Event}
    (h : e + 1 ≠ evs.length) : (evs.set e x).getLast? = evs.getLast? := by
  rcases hevs : evs with _ | ⟨y, ys⟩
  · simp
  · rw [← hevs]
    have hne : evs ≠ [] := by rw [hevs]; simp
    have hne2 : evs.set e x ≠ [] := by
      intro h0
      have := congrArg List.length h0
      simp at this
      rw [this] at hevs
      simp at hevs
    rw [List.getLast?_eq_getElem? evs, List.getLast?_eq_getElem? (evs.set e x)]
    simp only [List.length_set]
    rw [List.getElem?_set_ne]
    have hlen : 0 < evs.length := by rw [hevs]; simp
    omega

theorem w1_append {openers : List (Container × Nat)} {evs : List Event} {x : Event}
    (h : ∀ pr ∈ openers, ∃ ev, evs[pr.2]? = some ev ∧ ev.kind = .Str) :
    ∀ pr ∈ openers, ∃ ev, (evs ++ [x])[pr.2]? = some ev ∧ ev.kind = .Str := by
  intro pr hm
  obtain ⟨ev, he, hk⟩ := h pr hm
  have hlt : pr.2 < evs.length := (List.getElem?_eq_some.mp he).1
  exact ⟨ev, by rw [List.getElem?_append_left hlt]; exact he, hk⟩

theorem openers_lt_of_w1 {openers : List (Container × Nat)} {evs : List Event}
    (h : ∀ pr ∈ openers, ∃ ev, evs[pr.2]? = some ev ∧ ev.kind = .Str) :
    ∀ pr ∈ openers, pr.2 < evs.length := by
  intro pr hm
  obtain ⟨ev, he, -⟩ := h pr hm
  exact (List.getElem?_eq_some.mp he).1

theorem Parser.push_getElem_len {p : Parser} {ev : Event} :
    (p.push ev).events[p.events.length]? = some ev := by
  simp [Parser.push]

theorem Parser.push_getElem_lt {p : Parser} {ev : Event} {i : Nat}
    (h : i < p.events.length) : (p.push ev).events[i]? = p.events[i]? := by
  simp only [Parser.push]
  rw [List.getElem?_append_left h]

theorem Parser.push_getLast {p : Parser} {ev : Event} :
    (p.push ev).events.getLast? = some ev := by
  simp [Parser.push]

theorem Parser.parseVerbatim_openVerbatim {p : Parser} {first : Token}
    (hst : p.state.verbatim? = none)
    (htok : first.kind = .Seq .Backtick) :
    p.parseVerbatim first = .ok (some
      ({ p with state := State.Verbatim .Verbatim first.len p.events.length },
        ⟨.Enter .Verbatim, p.span⟩)) := by
  unfold Parser.parseVerbatim
  rw [hst, htok]

theorem Parser.parseVerbatim_openMath {p : Parser} {first : Token} {t : Token}
    {rest : List Char}
    (hst : p.state.verbatim? = none)
    (htok : first.kind = .Seq .Dollar)
    (hlen : first.len ≤ 2)
    (hpeek : lexToken p.lexer.chars = some (t, rest))
    (htk : t.kind = .Seq .Backtick) :
    p.parseVerbatim first = .ok (some
      ({ p with
          lexer := ⟨rest⟩
          span := p.span.extend t.len
          state := State.Verbatim
            (if first.len = 2 then .DisplayMath else .InlineMath)
            t.len p.events.length },
        ⟨.Enter (if first.len = 2 then .DisplayMath else .InlineMath),
          p.span.extend t.len⟩)) := by
  unfold Parser.parseVerbatim
  rw [hst, htok]
  dsimp only
  rw [if_pos hlen]
  rw [show p.peekTok = some t from by simp [Parser.peekTok, hpeek]]
  dsimp only
  rw [if_pos htk]
  rw [Parser.eat_fst_some hpeek]

theorem Parser.parseVerbatim_openNone {p : Parser} {first : Token}
    (hst : p.state.verbatim? = none)
    (hnb : first.kind ≠ .Seq .Backtick)
    (hnd : first.kind = .Seq .Dollar →
      first.len ≤ 2 →
      ∀ t rest, lexToken p.lexer.chars = some (t, rest) → t.kind ≠ .Seq .Backtick) :
    p.parseVerbatim first = .ok none := by
  unfold Parser.parseVerbatim
  rw [hst]
  rcases hk : first.kind with _ | _ | _ | _ | _ | sq | sy | d | d
  all_goals try rfl
  · rcases sq with _ | _ | _ | _
    · exact absurd hk hnb
    · dsimp only
      by_cases hl : first.len ≤ 2
      · rw [if_pos hl]
        rcases hpk : p.peekTok with _ | t
        · rfl
        · dsimp only
          rw [if_neg]
          obtain ⟨pr, hlex, hfst⟩ := Option.map_eq_some'.mp hpk
          intro hc
          exact hnd hk hl pr.1 pr.2 (by rw [hlex]) (by rw [hfst]; exact hc)
      · rw [if_neg hl]
    · rfl
    · rfl

theorem wf_resetSpan {p : Parser} (h : WF p) : WF p.resetSpan := by
  refine ⟨h.w1, h.w2, h.w3, ?_, h.w5⟩
  intro ev hl hs
  exact h.w4 ev hl hs

/-- The parser state after `reset_span` and eating the token `t`. -/
def Parser.afterTok (p : Parser) (t : Token) (rest : List Char) : Parser :=
  { p with lexer := ⟨rest⟩, span := ⟨p.span.stop, p.span.stop + t.len⟩ }

theorem Parser.parseEvent_eq_some {p : Parser} {t : Token} {rest : List Char}
    (hlex : lexToken p.lexer.chars = some (t, rest)) :
    p.parseEvent =
      (match (p.afterTok t rest).parseVerbatim t with
      | .error e => .error e
      | .ok (some (p2, ev)) => .ok (p2, some ev)
      | .ok none =>
        match (p.afterTok t rest).parseContainer t with
        | .error e => .error e
        | .ok (some (p2, ev)) => .ok (p2, some ev)
        | .ok none =>
          match (p.afterTok t rest).parseAtom t with
          | some ev => .ok (p.afterTok t rest, some ev)
          | none => .ok (p.afterTok t rest, some ⟨.Str, (p.afterTok t rest).span⟩)) := by
  unfold Parser.parseEvent
  rw [Parser.eat_fst_some (p := p.resetSpan) (by simpa [Parser.resetSpan] using hlex)]
  rfl

theorem Parser.afterTok_events (p : Parser) (t : Token) (rest : List Char) :
    (p.afterTok t rest).events = p.events := rfl

theorem w1_push {q : Parser} {ev : Event}
    (h : ∀ pr ∈ q.openers, ∃ x, q.events[pr.2]? = some x ∧ x.kind = .Str) :
    ∀ pr ∈ q.openers, ∃ x, (q.push ev).events[pr.2]? = some x ∧ x.kind = .Str := by
  intro pr hm
  obtain ⟨x, hx, hk⟩ := h pr hm
  exact ⟨x, by rw [Parser.push_getElem_lt (List.getElem?_eq_some.mp hx).1]; exact hx, hk⟩

theorem wf_push_build {q : Parser} {ev : Event}
    (hw1p : ∀ pr ∈ q.openers, ∃ x, (q.push ev).events[pr.2]? = some x ∧ x.kind = .Str)
    (hw3 : ∀ i a b, q.events[i]? = some a → q.events[i + 1]? = some b → strAdj a b)
    (hw5 : List.Pairwise (fun a b => a.2 < b.2) q.openers)
    (hseam : ∀ x, q.events.getLast? = some x → strAdj x ev)
    (hw4new : ev.kind = .Str → ev.span.stop = q.span.stop)
    (hw2p : ∀ k l e, q.state = .Verbatim k l e →
      ∃ x, (q.push ev).events[e]? = some x ∧ x.kind = .Enter k) :
    WF (q.push ev) := by
  refine ⟨hw1p, hw2p, ?_, ?_, hw5⟩
  · exact w3_append hw3 hseam
  · intro x hx hstr
    rw [Parser.push_getLast] at hx
    cases hx
    exact hw4new hstr

theorem Parser.parseContainer_close {p : Parser} {first : Token} {cont : Container}
    {dir : Dir} {o e : Nat} {x0 : Event}
    (hco : containerOf? first.kind = some (cont, dir))
    (hdir : dir = .Close ∨ dir = .Both)
    (hr : rpos p.openers cont = some (o, e))
    (hx0 : p.events[e]? = some x0) :
    p.parseContainer first = .ok (some
      ({ p with
          events := p.events.set e ⟨.Enter cont, x0.span⟩
          openers := p.openers.take o },
        ⟨.Exit cont, p.span⟩)) := by
  unfold Parser.parseContainer
  rw [hco]
  dsimp only
  rw [hr]
  rcases hdir with rfl | rfl
  · dsimp only
    rw [hx0]
  · dsimp only
    rw [hx0]

theorem Parser.parseContainer_push {p : Parser} {first : Token} {cont : Container}
    {dir : Dir}
    (hco : containerOf? first.kind = some (cont, dir))
    (hside : rpos p.openers cont = none ∨ dir = .Open) :
    p.parseContainer first = .ok (some
      ({ p with openers := p.openers ++ [(cont, p.events.length)] },
        ⟨.Str, p.span⟩)) := by
  unfold Parser.parseContainer
  rw [hco]
  dsimp only
  rcases hside with hnone | rfl
  · rw [hnone]
    all_goals cases dir
    all_goals rfl
  · rcases hrp : rpos p.openers cont with _ | ⟨o, e⟩
    all_goals rfl

theorem wf_push_close {p : Parser} {t : Token} {rest : List Char}
    {cont : Container} {o e : Nat} {x0 : Event}
    (hwf : WF p)
    (hstnone : p.state.verbatim? = none)
    (hr : rpos p.openers cont = some (o, e))
    (hx0 : p.events[e]? = some x0)
    (hx0k : x0.kind = .Str) :
    WF (({ (p.afterTok t rest) with
        events := p.events.set e ⟨.Enter cont, x0.span⟩
        openers := p.openers.take o } : Parser).push
      ⟨.Exit cont, (p.afterTok t rest).span⟩) := by
  have holt : o < p.openers.length := (List.getElem?_eq_some.mp (rpos_getElem hr)).1
  have hov : p.openers[o] = (cont, e) := (List.getElem?_eq_some.mp (rpos_getElem hr)).2
  apply wf_push_build
  · intro pr hm
    have hmo : pr ∈ p.openers := List.mem_of_mem_take hm
    obtain ⟨x, hx, hk⟩ := hwf.w1 pr hmo
    obtain ⟨j, hj⟩ := List.mem_iff_getElem?.mp hm
    have hjo : j < o := by
      by_contra hge
      rw [List.getElem?_take] at hj
      rw [if_neg hge] at hj
      cases hj
    rw [List.getElem?_take, if_pos hjo] at hj
    have hjlt : j < p.openers.length := (List.getElem?_eq_some.mp hj).1
    have hjv : p.openers[j] = pr := (List.getElem?_eq_some.mp hj).2
    have hpair := List.pairwise_iff_getElem.mp hwf.w5 j o hjlt holt hjo
    rw [hjv, hov] at hpair
    have hne : e ≠ pr.2 := by
      intro hEq
      rw [hEq] at hpair
      omega
    refine ⟨x, ?_, hk⟩
    show ((p.events.set e _) ++ _)[pr.2]? = some x
    rw [List.getElem?_append_left
      (by rw [List.length_set]; exact (List.getElem?_eq_some.mp hx).1)]
    rw [List.getElem?_set_ne hne]
    exact hx
  · exact w3_set_nonStr (by simp) hwf.w3
  · exact hwf.w5.sublist (List.take_sublist o p.openers)
  · intro x hx h1 h2
    exact absurd h2 (by simp)
  · intro hS
    exact absurd hS (by simp)
  · intro k2 l2 e2 hstate
    rw [show ({ (p.afterTok t rest) with
        events := p.events.set e ⟨.Enter cont, x0.span⟩
        openers := p.openers.take o } : Parser).state = p.state from rfl] at hstate
    rw [hstate] at hstnone
    simp [State.verbatim?] at hstnone

theorem Parser.parseEvent_wf {p : Parser} (hwf : WF p) :
    (p.parseEvent = .ok (p.resetSpan, none) ∧ WF p.resetSpan) ∨
    (∃ p1 ev, p.parseEvent = .ok (p1, some ev) ∧ WF (p1.push ev)) := by
  rcases hlex : lexToken p.lexer.chars with _ | ⟨t, rest⟩
  · left
    refine ⟨?_, wf_resetSpan hwf⟩
    unfold Parser.parseEvent
    rw [Parser.eat_fst_none (p := p.resetSpan) (by simpa [Parser.resetSpan] using hlex)]
  · right
    rw [Parser.parseEvent_eq_some hlex]
    have hseamS : ∀ x, p.events.getLast? = some x → x.kind = .Str →
        x.span.stop = p.span.stop := hwf.w4
    rcases hst : p.state.verbatim? with _ | ⟨k, l, e⟩
    · -- no verbatim mode: opening or container or atom or plain text
      by_cases hbt : t.kind = .Seq .Backtick
      · -- open a verbatim span
        rw [Parser.parseVerbatim_openVerbatim (p := p.afterTok t rest) hst hbt]
        dsimp only
        refine ⟨_, _, rfl, ?_⟩
        apply wf_push_build
        · exact w1_push hwf.w1
        · exact hwf.w3
        · exact hwf.w5
        · intro x hx h1 h2
          exact absurd h2 (by simp)
        · intro hS
          exact absurd hS (by simp)
        · intro k2 l2 e2 hstate
          have hk2 : State.Verbatim Container.Verbatim t.len p.events.length =
              State.Verbatim k2 l2 e2 := hstate
          cases hk2
          exact ⟨⟨.Enter .Verbatim, (p.afterTok t rest).span⟩,
            Parser.push_getElem_len, rfl⟩
      · by_cases hdl : t.kind = .Seq .Dollar ∧ t.len ≤ 2 ∧
            ∃ t2 rest2, lexToken rest = some (t2, rest2) ∧ t2.kind = .Seq .Backtick
        · -- open a math span
          obtain ⟨hdk, hdlen, t2, rest2, hlex2, ht2⟩ := hdl
          rw [Parser.parseVerbatim_openMath (p := p.afterTok t rest) hst hdk hdlen hlex2 ht2]
          dsimp only
          refine ⟨_, _, rfl, ?_⟩
          apply wf_push_build
          · exact w1_push hwf.w1
          · exact hwf.w3
          · exact hwf.w5
          · intro x hx h1 h2
            exact absurd h2 (by simp)
          · intro hS
            exact absurd hS (by simp)
          · intro k2 l2 e2 hstate
            have hk2 : State.Verbatim (if t.len = 2 then .DisplayMath else .InlineMath)
                t2.len p.events.length = State.Verbatim k2 l2 e2 := hstate
            cases hk2
            exact ⟨⟨.Enter (if t.len = 2 then .DisplayMath else .InlineMath),
              (p.afterTok t rest).span.extend t2.len⟩, Parser.push_getElem_len, rfl⟩
        · -- parse_verbatim yields nothing
          rw [Parser.parseVerbatim_openNone (p := p.afterTok t rest) hst hbt (by
            intro hdk hdlen t2 rest2 hlex2 ht2
            exact absurd ⟨hdk, hdlen, t2, rest2, hlex2, ht2⟩ hdl)]
          dsimp only
          rcases hco : containerOf? t.kind with _ | ⟨cont, dir⟩
          · -- not a container token: atom or plain str
            rw [show (p.afterTok t rest).parseContainer t = .ok none from by
              unfold Parser.parseContainer
              rw [hco]]
            dsimp only
            rcases hat : (p.afterTok t rest).parseAtom t with _ | ev
            · dsimp only
              refine ⟨_, _, rfl, ?_⟩
              apply wf_push_build
              · exact w1_push hwf.w1
              · exact hwf.w3
              · exact hwf.w5
              · intro x hx h1 h2
                exact hseamS x hx h1
              · intro hS
                rfl
              · intro k2 l2 e2 hstate
                rw [show (p.afterTok t rest).state = p.state from rfl] at hstate
                rw [hstate] at hst
                simp [State.verbatim?] at hst
            · dsimp only
              have hkind : ev.kind ≠ .Str := by
                obtain ⟨a, hak, -⟩ := Parser.parseAtom_kind hat
                rw [hak]
                simp
              refine ⟨_, _, rfl, ?_⟩
              apply wf_push_build
              · exact w1_push hwf.w1
              · exact hwf.w3
              · exact hwf.w5
              · intro x hx h1 h2
                exact absurd h2 hkind
              · intro hS
                exact absurd hS hkind
              · intro k2 l2 e2 hstate
                rw [show (p.afterTok t rest).state = p.state from rfl] at hstate
                rw [hstate] at hst
                simp [State.verbatim?] at hst
          · rcases hr : rpos p.openers cont with _ | ⟨o, e⟩
            · -- no same-type opener (or an Open-only token): push a placeholder
              rw [Parser.parseContainer_push (p := p.afterTok t rest) hco
                (Or.inl hr)]
              dsimp only
              refine ⟨_, _, rfl, ?_⟩
              apply wf_push_build
              · intro pr hm
                rcases List.mem_append.mp hm with hm | hm
                · obtain ⟨x, hx, hk⟩ := hwf.w1 pr hm
                  refine ⟨x, ?_, hk⟩
                  show (p.events ++ _)[pr.2]? = some x
                  rw [List.getElem?_append_left (List.getElem?_eq_some.mp hx).1]
                  exact hx
                · have hpr : pr = (cont, p.events.length) := by simpa using hm
                  subst hpr
                  exact ⟨⟨.Str, (p.afterTok t rest).span⟩, Parser.push_getElem_len, rfl⟩
              · exact hwf.w3
              · rw [List.pairwise_append]
                refine ⟨hwf.w5, by simp, ?_⟩
                intro a ha b hb
                have hb2 : b = (cont, p.events.length) := by simpa using hb
                subst hb2
                exact openers_lt_of_w1 hwf.w1 a ha
              · intro x hx h1 h2
                exact hseamS x hx h1
              · intro hS
                rfl
              · intro k2 l2 e2 hstate
                rw [show ({ (p.afterTok t rest) with
                    openers := p.openers ++ [(cont, p.events.length)] } : Parser).state =
                  p.state from rfl] at hstate
                rw [hstate] at hst
                simp [State.verbatim?] at hst
            · -- same-type opener found
              obtain ⟨x0, hx0, hx0k⟩ := hwf.w1 (cont, e) (List.getElem?_mem (rpos_getElem hr))
              rcases hdir : dir with _ | _ | _
              all_goals subst hdir
              · -- Open-only token: push even though a match exists
                rw [Parser.parseContainer_push (p := p.afterTok t rest) hco
                  (Or.inr rfl)]
                dsimp only
                refine ⟨_, _, rfl, ?_⟩
                apply wf_push_build
                · intro pr hm
                  rcases List.mem_append.mp hm with hm | hm
                  · obtain ⟨x, hx, hk⟩ := hwf.w1 pr hm
                    refine ⟨x, ?_, hk⟩
                    show (p.events ++ _)[pr.2]? = some x
                    rw [List.getElem?_append_left (List.getElem?_eq_some.mp hx).1]
                    exact hx
                  · have hpr : pr = (cont, p.events.length) := by simpa using hm
                    subst hpr
                    exact ⟨⟨.Str, (p.afterTok t rest).span⟩, Parser.push_getElem_len, rfl⟩
                · exact hwf.w3
                · rw [List.pairwise_append]
                  refine ⟨hwf.w5, by simp, ?_⟩
                  intro a ha b hb
                  have hb2 : b = (cont, p.events.length) := by simpa using hb
                  subst hb2
                  exact openers_lt_of_w1 hwf.w1 a ha
                · intro x hx h1 h2
                  exact hseamS x hx h1
                · intro hS
                  rfl
                · intro k2 l2 e2 hstate
                  rw [show ({ (p.afterTok t rest) with
                      openers := p.openers ++ [(cont, p.events.length)] } : Parser).state =
                    p.state from rfl] at hstate
                  rw [hstate] at hst
                  simp [State.verbatim?] at hst
              · -- Close: resolve the topmost same-type opener
                rw [Parser.parseContainer_close (p := p.afterTok t rest) hco
                  (Or.inl rfl) hr hx0]
                dsimp only
                refine ⟨_, _, rfl, ?_⟩
                exact wf_push_close hwf hst hr hx0 hx0k
              · -- Both with a match: resolve like Close
                rw [Parser.parseContainer_close (p := p.afterTok t rest) hco
                  (Or.inr rfl) hr hx0]
                dsimp only
                refine ⟨_, _, rfl, ?_⟩
                exact wf_push_close hwf hst hr hx0 hx0k
    · -- in verbatim mode
      have hste : p.state = .Verbatim k l e := State.verbatim?_eq_some hst
      obtain ⟨oev, hoev, hko⟩ := hwf.w2 k l e hste
      by_cases hclose : t.kind = .Seq .Backtick ∧ t.len = l
      · by_cases hkV : k = Container.Verbatim
        · subst hkV
          by_cases hra : RawAnnot rest
          · obtain ⟨ident, rest2, hch, hne2, hid⟩ := hra
            rw [Parser.parseVerbatim_rawFormat (p := p.afterTok t rest)
              hste hoev hko hclose.1 hclose.2
              (show (p.afterTok t rest).lexer.chars = _ from hch) hne2 hid]
            dsimp only
            refine ⟨_, _, rfl, ?_⟩
            apply wf_push_build
            · intro pr hm
              obtain ⟨x, hx, hk⟩ := hwf.w1 pr hm
              have hne : e ≠ pr.2 := by
                intro hEq
                rw [hEq] at hoev
                rw [hoev] at hx
                cases hx
                rw [hko] at hk
                cases hk
              refine ⟨x, ?_, hk⟩
              show ((p.events.set e _) ++ _)[pr.2]? = some x
              rw [List.getElem?_append_left
                (by rw [List.length_set]; exact (List.getElem?_eq_some.mp hx).1)]
              rw [List.getElem?_set_ne hne]
              exact hx
            · exact w3_set_nonStr (by simp) hwf.w3
            · exact hwf.w5
            · intro x hx h1 h2
              exact absurd h2 (by simp)
            · intro hS
              exact absurd hS (by simp)
            · intro k2 l2 e2 hstate
              simp at hstate
          · rw [Parser.parseVerbatim_closePlain (p := p.afterTok t rest)
              hste hoev hko hclose.1 hclose.2
              (show ¬ RawAnnot (p.afterTok t rest).lexer.chars from hra)]
            dsimp only
            refine ⟨_, _, rfl, ?_⟩
            apply wf_push_build
            · intro pr hm
              obtain ⟨x, hx, hk⟩ := hwf.w1 pr hm
              refine ⟨x, ?_, hk⟩
              show (p.events ++ _)[pr.2]? = some x
              rw [List.getElem?_append_left (List.getElem?_eq_some.mp hx).1]
              exact hx
            · exact hwf.w3
            · exact hwf.w5
            · intro x hx h1 h2
              exact absurd h2 (by simp)
            · intro hS
              exact absurd hS (by simp)
            · intro k2 l2 e2 hstate
              simp at hstate
        · rw [Parser.parseVerbatim_closeMath (p := p.afterTok t rest)
            hste hoev hko hclose.1 hclose.2 hkV]
          dsimp only
          refine ⟨_, _, rfl, ?_⟩
          apply wf_push_build
          · intro pr hm
            obtain ⟨x, hx, hk⟩ := hwf.w1 pr hm
            refine ⟨x, ?_, hk⟩
            show (p.events ++ _)[pr.2]? = some x
            rw [List.getElem?_append_left (List.getElem?_eq_some.mp hx).1]
            exact hx
          · exact hwf.w3
          · exact hwf.w5
          · intro x hx h1 h2
            exact absurd h2 (by simp)
          · intro hS
            exact absurd hS (by simp)
          · intro k2 l2 e2 hstate
            simp at hstate
      · -- literal content inside the span
        rw [Parser.parseVerbatim_content (p := p.afterTok t rest) hste hoev hko hclose]
        dsimp only
        refine ⟨_, _, rfl, ?_⟩
        apply wf_push_build
        · intro pr hm
          obtain ⟨x, hx, hk⟩ := hwf.w1 pr hm
          refine ⟨x, ?_, hk⟩
          show (p.events ++ _)[pr.2]? = some x
          rw [List.getElem?_append_left (List.getElem?_eq_some.mp hx).1]
          exact hx
        · exact hwf.w3
        · exact hwf.w5
        · intro x hx h1 h2
          exact hseamS x hx h1
        · intro hS
          rfl
        · intro k2 l2 e2 hstate
          rw [show (p.afterTok t rest).state = p.state from rfl] at hstate
          rw [hste] at hstate
          cases hstate
          exact ⟨oev, by
            rw [Parser.push_getElem_lt
              (show e < (p.afterTok t rest).events.length from
                (List.getElem?_eq_some.mp hoev).1)]
            exact hoev, hko⟩

theorem lexToken_cons_isSome (c : Char) (cs : List Char) :
    (lexToken (c :: cs)).isSome := by
  unfold lexToken
  repeat' split
  all_goals simp_all

theorem lexToken_none_eq_nil {cs : List Char} (h : lexToken cs = none) : cs = [] := by
  cases cs with
  | nil => rfl
  | cons c cs' =>
    have := lexToken_cons_isSome c cs'
    rw [h] at this
    cases this

/-- The drained-input phase invariant: consecutive queued `Str` events stay
span-contiguous.  This is all that is needed once the final chunk's tokens
are exhausted (no parsing step can run again, only pops and merges). -/
def W3only (p : Parser) : Prop :=
  ∀ i a b, p.events[i]? = some a → p.events[i + 1]? = some b → strAdj a b

/-- The invariant carried through `next` calls of a conforming caller:
either the state is fully well-formed, or the final chunk is already
exhausted (only pops remain) and the merge continuity condition holds. -/
def Inv (p : Parser) : Prop :=
  WF p ∨ (p.last = true ∧ p.lexer.chars = [] ∧ W3only p)

theorem wf_new : WF Parser.new := by
  refine ⟨?_, ?_, ?_, ?_, ?_⟩
  · intro pr hm
    simp [Parser.new] at hm
  · intro k l e h
    simp [Parser.new] at h
  · intro i a b ha
    simp [Parser.new] at ha
  · intro ev h
    simp [Parser.new] at h
  · simp [Parser.new]

theorem wf_parse {p : Parser} {s : List Char} {b : Bool} {p' : Parser}
    (hwf : WF p) (h : p.parse s b = .ok p') : WF p' := by
  unfold Parser.parse at h
  dsimp only at h
  split at h
  · exact absurd h (by simp)
  · cases h
    exact ⟨hwf.w1, hwf.w2, hwf.w3, hwf.w4, hwf.w5⟩

theorem Parser.nextLoop_wf_aux (n : Nat) : ∀ p : Parser,
    p.lexer.chars.length ≤ n → WF p →
    ∃ q nm, p.nextLoop = .ok (q, nm) ∧ WF q := by
  induction n with
  | zero =>
    intro p hn hwf
    rw [Parser.nextLoop_eq]
    by_cases hc : p.loopCond
    · rw [if_pos hc]
      rcases Parser.parseEvent_wf hwf with ⟨hpe, hwf'⟩ | ⟨p1, ev, hpe, hwf'⟩
      · rw [hpe]
        exact ⟨p.resetSpan, true, rfl, hwf'⟩
      · have := (Parser.parseEvent_ok_some hpe).1
        omega
    · rw [if_neg hc]
      exact ⟨p, false, rfl, hwf⟩
  | succ n ih =>
    intro p hn hwf
    rw [Parser.nextLoop_eq]
    by_cases hc : p.loopCond
    · rw [if_pos hc]
      rcases Parser.parseEvent_wf hwf with ⟨hpe, hwf'⟩ | ⟨p1, ev, hpe, hwf'⟩
      · rw [hpe]
        exact ⟨p.resetSpan, true, rfl, hwf'⟩
      · rw [hpe]
        have hlt := (Parser.parseEvent_ok_some hpe).1
        exact ih (p1.push ev) (by simp only [Parser.push]; omega) hwf'
    · rw [if_neg hc]
      exact ⟨p, false, rfl, hwf⟩

theorem Parser.nextLoop_wf {p : Parser} (hwf : WF p) :
    ∃ q nm, p.nextLoop = .ok (q, nm) ∧ WF q :=
  Parser.nextLoop_wf_aux p.lexer.chars.length p (le_refl _) hwf

theorem loopCond_false_parts {p : Parser} (h : p.loopCond = false) :
    p.events ≠ [] ∧ p.openers = [] ∧ p.state.isNone = true ∧
      lastIsStr p.events = false := by
  unfold Parser.loopCond at h
  simp only [Bool.or_eq_false_iff] at h
  obtain ⟨⟨⟨h1, h2⟩, h3⟩, h4⟩ := h
  refine ⟨?_, ?_, ?_, h4⟩
  · intro h0
    rw [h0] at h1
    simp at h1
  · simpa using h2
  · simpa using h3

theorem w3_drop {evs : List Event} {j : Nat}
    (h : ∀ i a b, evs[i]? = some a → evs[i + 1]? = some b → strAdj a b) :
    ∀ i a b, (evs.drop j)[i]? = some a → (evs.drop j)[i + 1]? = some b →
      strAdj a b := by
  intro i a b ha hb
  rw [List.getElem?_drop] at ha hb
  have : j + (i + 1) = (j + i) + 1 := by omega
  rw [this] at hb
  exact h (j + i) a b ha hb

theorem getLast?_drop_of_ne {evs : List Event} {j : Nat}
    (h : evs.drop j ≠ []) : (evs.drop j).getLast? = evs.getLast? := by
  have hj : j < evs.length := by
    by_contra hge
    rw [List.drop_eq_nil_of_le (by omega)] at h
    exact h rfl
  have hne : evs ≠ [] := by
    intro h0
    rw [h0] at hj
    simp at hj
  rw [List.getLast?_eq_getElem? evs, List.getLast?_eq_getElem? (evs.drop j)]
  rw [List.getElem?_drop]
  congr 1
  simp only [List.length_drop]
  omega

theorem getLast?_cons_ne {α : Type} (a : α) {l : List α} (h : l ≠ []) :
    (a :: l).getLast? = l.getLast? := by
  cases l with
  | nil => exact absurd rfl h
  | cons b bs => rfl

theorem mergeStrs_chain : ∀ {evs : List Event} {sp : Span},
    (∀ i a b, evs[i]? = some a → evs[i + 1]? = some b → strAdj a b) →
    (∀ b, evs[0]? = some b → b.kind = .Str → sp.stop = b.span.start) →
    ∃ sp' j, mergeStrs sp evs = .ok (sp', evs.drop j) := by
  intro evs
  induction evs with
  | nil =>
    intro sp hch hfirst
    exact ⟨sp, 0, rfl⟩
  | cons ev rest ih =>
    intro sp hch hfirst
    simp only [mergeStrs]
    by_cases hS : ev.kind = .Str
    · rw [if_pos hS]
      rw [if_pos (hfirst ev (by simp) hS)]
      obtain ⟨sp', j, hj⟩ := @ih (sp.union ev.span)
        (fun i a b ha hb => hch (i + 1) a b (by simpa using ha) (by simpa using hb))
        (fun b hb hbS => hch 0 ev b (by simp) (by simpa using hb) hS hbS)
      exact ⟨sp', j + 1, by rw [List.drop_succ_cons]; exact hj⟩
    · rw [if_neg hS]
      exact ⟨sp, 0, rfl⟩

theorem Parser.next_inv {p : Parser} (hinv : Inv p) :
    ∃ r p', p.next = .ok (r, p') ∧ Inv p' ∧ p'.last = p.last := by
  rcases hinv with hwf | ⟨hlast, hlex, hw3⟩
  · obtain ⟨q, nm, hloop, hwfq⟩ := Parser.nextLoop_wf hwf
    have hspec := Parser.nextLoop_spec hloop
    unfold Parser.next
    rw [hloop]
    dsimp only
    by_cases hpop : (q.last || !nm) = true
    · rw [if_pos hpop]
      rcases hevs : q.events with _ | ⟨front, rest⟩
      · dsimp only
        rcases hv : q.state.verbatim? with _ | ⟨⟨k2, l2, e2⟩⟩
        · dsimp only
          exact ⟨none, q, rfl, Or.inl hwfq, hspec.2.1⟩
        · dsimp only
          have hnm : nm = true := by
            cases hnm : nm
            · exact absurd hevs (loopCond_false_parts (hspec.2.2.2.1 hnm)).1
            · rfl
          refine ⟨_, _, rfl, ?_, hspec.2.1⟩
          right
          refine ⟨?_, ?_, ?_⟩
          · show q.last = true
            cases hql : q.last
            · rw [hql, hnm] at hpop
              simp at hpop
            · rfl
          · show q.lexer.chars = []
            exact lexToken_none_eq_nil (hspec.2.2.1 hnm)
          · intro i a b ha hb
            simp at ha
      · dsimp only
        have hcases : (q.openers = [] ∧ q.state.isNone = true) ∨
            (q.last = true ∧ q.lexer.chars = []) := by
          cases hnm : nm
          · have := loopCond_false_parts (hspec.2.2.2.1 hnm)
            exact Or.inl ⟨this.2.1, this.2.2.1⟩
          · right
            constructor
            · cases hql : q.last
              · rw [hql, hnm] at hpop
                simp at hpop
              · rfl
            · exact lexToken_none_eq_nil (hspec.2.2.1 hnm)
        by_cases hS : front.kind = .Str
        · rw [if_pos hS]
          obtain ⟨sp', j, hmerge⟩ := mergeStrs_chain
            (fun i a b ha hb => hwfq.w3 (i + 1) a b (by rw [hevs]; simpa using ha)
              (by rw [hevs]; simpa using hb))
            (fun b hb hbS => hwfq.w3 0 front b (by simp [hevs]) (by rw [hevs]; simpa using hb)
              hS hbS)
          rw [hmerge]
          dsimp only
          refine ⟨some ⟨.Str, sp'⟩, { q with events := rest.drop j }, rfl, ?_, hspec.2.1⟩
          have hw3' : W3only { q with events := rest.drop j } := by
            intro i a b ha hb
            exact w3_drop (j := j)
              (fun i a b ha hb => hwfq.w3 (i + 1) a b (by rw [hevs]; simpa using ha)
                (by rw [hevs]; simpa using hb)) i a b ha hb
          rcases hcases with ⟨hop, hstn⟩ | ⟨hql, hqlex⟩
          · left
            refine ⟨?_, ?_, hw3', ?_, ?_⟩
            · intro pr hm
              rw [hop] at hm
              simp at hm
            · intro k3 l3 e3 hst3
              rw [hst3] at hstn
              simp [State.isNone] at hstn
            · intro ev hl hevS
              by_cases hrd : rest.drop j = []
              · rw [show ({ q with events := rest.drop j } : Parser).events = rest.drop j
                  from rfl, hrd] at hl
                simp at hl
              · rw [show ({ q with events := rest.drop j } : Parser).events = rest.drop j
                  from rfl] at hl
                rw [getLast?_drop_of_ne hrd] at hl
                have hrne : rest ≠ [] := by
                  intro h0
                  rw [h0] at hrd
                  simp at hrd
                have : q.events.getLast? = some ev := by
                  rw [hevs, getLast?_cons_ne front hrne]
                  exact hl
                exact hwfq.w4 ev this hevS
            · rw [hop]
              simp
          · right
            exact ⟨hql, hqlex, hw3'⟩
        · rw [if_neg hS]
          refine ⟨some front, { q with events := rest }, rfl, ?_, hspec.2.1⟩
          have hw3' : W3only { q with events := rest } := by
            intro i a b ha hb
            exact hwfq.w3 (i + 1) a b (by rw [hevs]; simpa using ha)
              (by rw [hevs]; simpa using hb)
          rcases hcases with ⟨hop, hstn⟩ | ⟨hql, hqlex⟩
          · left
            refine ⟨?_, ?_, hw3', ?_, ?_⟩
            · intro pr hm
              rw [hop] at hm
              simp at hm
            · intro k3 l3 e3 hst3
              rw [hst3] at hstn
              simp [State.isNone] at hstn
            · intro ev hl hevS
              by_cases hrd : rest = []
              · rw [show ({ q with events := rest } : Parser).events = rest from rfl,
                  hrd] at hl
                simp at hl
              · rw [show ({ q with events := rest } : Parser).events = rest from rfl] at hl
                have : q.events.getLast? = some ev := by
                  rw [hevs, getLast?_cons_ne front hrd]
                  exact hl
                exact hwfq.w4 ev this hevS
            · rw [hop]
              simp
          · right
            exact ⟨hql, hqlex, hw3'⟩
    · rw [if_neg hpop]
      exact ⟨none, q, rfl, Or.inl hwfq, hspec.2.1⟩
  · -- terminal phase: the final chunk is exhausted, only pops remain
    have hloop : p.nextLoop = .ok (p.resetSpan, true) ∨ p.nextLoop = .ok (p, false) := by
      rw [Parser.nextLoop_eq]
      by_cases hc : p.loopCond
      · rw [if_pos hc]
        left
        rw [show p.parseEvent = .ok (p.resetSpan, none) from by
          unfold Parser.parseEvent
          rw [Parser.eat_fst_none (p := p.resetSpan)
            (by simp [Parser.resetSpan, hlex, lexToken])]]
      · rw [if_neg hc]
        right
        rfl
    unfold Parser.next
    rcases hloop with hloop | hloop
    all_goals rw [hloop]
    all_goals dsimp only
    · rw [if_pos (by simp [Parser.resetSpan, hlast])]
      rcases hevs : (p.resetSpan).events with _ | ⟨front, rest⟩
      · dsimp only
        rcases hv : (p.resetSpan).state.verbatim? with _ | ⟨⟨k2, l2, e2⟩⟩
        · dsimp only
          exact ⟨none, p.resetSpan, rfl,
            Or.inr ⟨hlast, hlex, fun i a b ha hb => by
              rw [hevs] at ha
              simp at ha⟩, rfl⟩
        · dsimp only
          refine ⟨_, _, rfl, ?_, rfl⟩
          right
          refine ⟨hlast, hlex, ?_⟩
          intro i a b ha hb
          simp at ha
      · dsimp only
        by_cases hS : front.kind = .Str
        · rw [if_pos hS]
          have hw3r : ∀ i a b, (p.resetSpan).events[i]? = some a →
              (p.resetSpan).events[i + 1]? = some b → strAdj a b := hw3
          obtain ⟨sp', j, hmerge⟩ := mergeStrs_chain
            (fun i a b ha hb => hw3r (i + 1) a b (by rw [hevs]; simpa using ha)
              (by rw [hevs]; simpa using hb))
            (fun b hb hbS => hw3r 0 front b (by simp [hevs]) (by rw [hevs]; simpa using hb)
              hS hbS)
          rw [hmerge]
          dsimp only
          refine ⟨some ⟨.Str, sp'⟩, { p.resetSpan with events := rest.drop j },
            rfl, ?_, rfl⟩
          right
          refine ⟨hlast, hlex, ?_⟩
          intro i a b ha hb
          exact w3_drop (j := j)
            (fun i a b ha hb => hw3r (i + 1) a b (by rw [hevs]; simpa using ha)
              (by rw [hevs]; simpa using hb)) i a b ha hb
        · rw [if_neg hS]
          refine ⟨some front, { p.resetSpan with events := rest }, rfl, ?_, rfl⟩
          right
          refine ⟨hlast, hlex, ?_⟩
          intro i a b ha hb
          refine hw3 (i + 1) a b ?_ ?_
          · show (p.resetSpan).events[i + 1]? = some a
            rw [hevs]
            simpa using ha
          · show (p.resetSpan).events[i + 1 + 1]? = some b
            rw [hevs]
            simpa using hb
    · rw [if_pos (by simp [hlast])]
      have hlc : p.loopCond = false := by
        rw [Parser.nextLoop_eq] at hloop
        by_cases hc : p.loopCond
        · rw [if_pos hc] at hloop
          rw [show p.parseEvent = .ok (p.resetSpan, none) from by
            unfold Parser.parseEvent
            rw [Parser.eat_fst_none (p := p.resetSpan)
              (by simp [Parser.resetSpan, hlex, lexToken])]] at hloop
          simp at hloop
        · simpa using hc
      have hcond := loopCond_false_parts hlc
      rcases hevs : p.events with _ | ⟨front, rest⟩
      · exact absurd hevs hcond.1
      · dsimp only
        by_cases hS : front.kind = .Str
        · rw [if_pos hS]
          obtain ⟨sp', j, hmerge⟩ := mergeStrs_chain
            (fun i a b ha hb => hw3 (i + 1) a b (by rw [hevs]; simpa using ha)
              (by rw [hevs]; simpa using hb))
            (fun b hb hbS => hw3 0 front b (by simp [hevs]) (by rw [hevs]; simpa using hb)
              hS hbS)
          rw [hmerge]
          dsimp only
          refine ⟨some ⟨.Str, sp'⟩, { p with events := rest.drop j }, rfl, ?_, rfl⟩
          right
          refine ⟨hlast, hlex, ?_⟩
          intro i a b ha hb
          exact w3_drop (j := j)
            (fun i a b ha hb => hw3 (i + 1) a b (by rw [hevs]; simpa using ha)
              (by rw [hevs]; simpa using hb)) i a b ha hb
        · rw [if_neg hS]
          refine ⟨some front, { p with events := rest }, rfl, ?_, rfl⟩
          right
          refine ⟨hlast, hlex, ?_⟩
          intro i a b ha hb
          exact hw3 (i + 1) a b (by rw [hevs]; simpa using ha)
            (by rw [hevs]; simpa using hb)

theorem Parser.drain_inv_aux (n : Nat) : ∀ p : Parser, p.mu ≤ n → Inv p →
    ∃ E p', p.drain = .ok (E, p') ∧ Inv p' ∧ p'.last = p.last := by
  induction n with
  | zero =>
    intro p hn hinv
    rw [Parser.drain_eq]
    obtain ⟨r, p', hnext, hinv', hl⟩ := Parser.next_inv hinv
    rcases r with _ | ev
    · rw [hnext]
      exact ⟨[], p', rfl, hinv', hl⟩
    · have := Parser.next_some_mu_lt hnext
      omega
  | succ n ih =>
    intro p hn hinv
    rw [Parser.drain_eq]
    obtain ⟨r, p', hnext, hinv', hl⟩ := Parser.next_inv hinv
    rcases r with _ | ev
    · rw [hnext]
      exact ⟨[], p', rfl, hinv', hl⟩
    · rw [hnext]
      dsimp only
      have hlt := Parser.next_some_mu_lt hnext
      obtain ⟨E, q, hq, hinvq, hlq⟩ := ih p' (by omega) hinv'
      rw [hq]
      exact ⟨ev :: E, q, rfl, hinvq, hlq.trans hl⟩

theorem Parser.drain_inv {p : Parser} (hinv : Inv p) :
    ∃ E p', p.drain = .ok (E, p') ∧ Inv p' ∧ p'.last = p.last :=
  Parser.drain_inv_aux p.mu p (le_refl _) hinv

theorem runChunksAux_protocol : ∀ (pres : List (List Char)) (p : Parser)
    (fin : List Char), WF p → p.last = false →
    ∃ E, runChunksAux p (pres.map (fun s => (s, false)) ++ [(fin, true)]) = .ok E := by
  intro pres
  induction pres with
  | nil =>
    intro p fin hwf hlast
    have hp : p.parse fin true = .ok { p with lexer := ⟨fin⟩, last := true } := by
      unfold Parser.parse
      dsimp only
      rw [if_neg (by simp [hlast])]
    have hwf1 : WF { p with lexer := ⟨fin⟩, last := true } :=
      ⟨hwf.w1, hwf.w2, hwf.w3, hwf.w4, hwf.w5⟩
    obtain ⟨E, p2, hd, _, _⟩ := Parser.drain_inv (Or.inl hwf1)
    refine ⟨E ++ [], ?_⟩
    simp only [List.map_nil, List.nil_append]
    simp [runChunksAux, hp, hd]
  | cons s pres ih =>
    intro p fin hwf hlast
    have hp : p.parse s false = .ok { p with lexer := ⟨s⟩, last := false } := by
      unfold Parser.parse
      dsimp only
      rw [if_neg (by simp)]
    have hwf1 : WF { p with lexer := ⟨s⟩, last := false } :=
      ⟨hwf.w1, hwf.w2, hwf.w3, hwf.w4, hwf.w5⟩
    obtain ⟨E, p2, hd, hinv2, hl2⟩ := Parser.drain_inv (Or.inl hwf1)
    have hl2' : p2.last = false := hl2
    have hwf2 : WF p2 := by
      rcases hinv2 with h | ⟨h1, _, _⟩
      · exact h
      · rw [hl2'] at h1
        exact absurd h1 (by simp)
    obtain ⟨E2, hE2⟩ := ih p2 fin hwf2 hl2'
    refine ⟨E ++ E2, ?_⟩
    simp only [List.map_cons, List.cons_append]
    simp [runChunksAux, hp, hd, hE2]

theorem Parser.next_some_state {p q : Parser} {ev : Event}
    (hnext : p.next = .ok (some ev, q)) :
    ∃ p1 nm, p.nextLoop = .ok (p1, nm) ∧ (p1.last || !nm) = true ∧
      q.openers = p1.openers ∧ q.last = p1.last ∧ q.lexer = p1.lexer := by
  unfold Parser.next at hnext
  rcases hloop : p.nextLoop with e | ⟨p1, nm⟩ <;> rw [hloop] at hnext
  · exact absurd hnext (by simp)
  · dsimp only at hnext
    by_cases hpop : (p1.last || !nm) = true
    · rw [if_pos hpop] at hnext
      refine ⟨p1, nm, rfl, hpop, ?_⟩
      split at hnext
      · split at hnext
        · split at hnext
          · exact absurd hnext (by simp)
          · simp only [Except.ok.injEq, Prod.mk.injEq] at hnext
            obtain ⟨-, rfl⟩ := hnext
            exact ⟨rfl, rfl, rfl⟩
        · simp only [Except.ok.injEq, Prod.mk.injEq] at hnext
          obtain ⟨-, rfl⟩ := hnext
          exact ⟨rfl, rfl, rfl⟩
      · split at hnext
        · simp only [Except.ok.injEq, Prod.mk.injEq] at hnext
          obtain ⟨-, rfl⟩ := hnext
          exact ⟨rfl, rfl, rfl⟩
        · exact absurd hnext (by simp)
    · rw [if_neg hpop] at hnext
      exact absurd hnext (by simp)

/-- C8: under the calling contract — every chunk supplied with `last = false`
except the final one supplied with `last = true` — parsing and draining never
raise any error on any input text: no internal assertion (span continuity of
merged `Str` events, the chunk-protocol assertion, or any other panic in the
driver) ever fires; the run always produces an event list. -/
theorem C8_protocol_no_error (pres : List (List Char)) (fin : List Char) :
    ∃ E, runChunks (pres.map (fun s => (s, false)) ++ [(fin, true)]) = .ok E :=
  runChunksAux_protocol pres Parser.new fin wf_new rfl

def p9a : Parser :=
  { openers := [(.Strong, 0)]
    events := [⟨.Str, ⟨0, 2⟩⟩]
    span := ⟨2, 2⟩
    lexer := ⟨['a']⟩
    state := .None
    last := false }

def q9a : Parser :=
  { openers := [(.Strong, 0)]
    events := [⟨.Str, ⟨0, 2⟩⟩, ⟨.Str, ⟨2, 3⟩⟩]
    span := ⟨3, 3⟩
    lexer := ⟨[]⟩
    state := .None
    last := false }

def p9b : Parser :=
  { openers := [(.Strong, 0)]
    events := [⟨.Str, ⟨0, 2⟩⟩, ⟨.Str, ⟨2, 3⟩⟩]
    span := ⟨3, 3⟩
    lexer := ⟨[]⟩
    state := .None
    last := true }

def q9b : Parser :=
  { openers := [(.Strong, 0)]
    events := []
    span := ⟨3, 3⟩
    lexer := ⟨[]⟩
    state := .None
    last := true }

theorem wf9a : WF p9a := by
  refine ⟨?_, ?_, ?_, ?_, ?_⟩
  · intro pr hm
    rw [show p9a.openers = [(Container.Strong, 0)] from rfl, List.mem_singleton] at hm
    subst hm
    exact ⟨⟨.Str, ⟨0, 2⟩⟩, by decide, by decide⟩
  · intro k l e h
    exact absurd h (by simp [p9a])
  · intro i a b ha hb
    rw [List.getElem?_eq_none (Nat.succ_le_succ (Nat.zero_le i))] at hb
    cases hb
  · intro ev hl hS
    have hev : ev = ⟨.Str, ⟨0, 2⟩⟩ := by
      rw [show p9a.events.getLast? = some ⟨.Str, ⟨0, 2⟩⟩ from rfl] at hl
      exact (Option.some_injective _ hl).symm
    rw [hev]
    rfl
  · decide

/-- C9: opener-stack bookkeeping.  While further input may still arrive
(`last = false`), every successful `next` call preserves the well-formedness
invariant — in particular each opener-stack entry's event index addresses an
event still present in the queue whose kind is currently `Str` — and `next`
never pops an event past a non-empty opener stack unless the final chunk has
been supplied and its tokens are exhausted, so no further tokens can ever
arrive. -/
theorem C9_opener_invariant :
    (∀ (p : Parser) (r : Option Event) (p' : Parser),
      WF p → p.next = .ok (r, p') → p.last = false → WF p') ∧
    (∀ (p : Parser) (ev : Event) (p' : Parser),
      p.next = .ok (some ev, p') → p'.openers ≠ [] →
      p'.last = true ∧ p'.lexer.chars = []) := by
  constructor
  · intro p r p' hwf hnext hlast
    obtain ⟨r2, p2, hnext2, hinv2, hl2⟩ := Parser.next_inv (Or.inl hwf)
    rw [hnext] at hnext2
    simp only [Except.ok.injEq, Prod.mk.injEq] at hnext2
    obtain ⟨-, rfl⟩ := hnext2
    rcases hinv2 with h | ⟨ht, _, _⟩
    · exact h
    · rw [hl2, hlast] at ht
      exact absurd ht (by simp)
  · intro p ev p' hnext hop
    obtain ⟨p1, nm, hloop, hpop, hopeq, hlasteq, hlexeq⟩ := Parser.next_some_state hnext
    have hspec := Parser.nextLoop_spec hloop
    have hnm : nm = true := by
      cases hnmc : nm
      · have hparts := loopCond_false_parts (hspec.2.2.2.1 hnmc)
        rw [hopeq] at hop
        exact absurd hparts.2.1 hop
      · rfl
    have hlex1 : p1.lexer.chars = [] := lexToken_none_eq_nil (hspec.2.2.1 hnm)
    have hl1 : p1.last = true := by
      cases hlc : p1.last
      · rw [hlc, hnm] at hpop
        simp at hpop
      · rfl
    rw [hlasteq, hlexeq]
    exact ⟨hl1, hlex1⟩

theorem C9_opener_invariant_witness :
    (WF p9a ∧ p9a.last = false ∧ WF q9a) ∧
    (p9b.next = .ok (some ⟨.Str, ⟨0, 3⟩⟩, q9b) ∧ q9b.openers ≠ [] ∧
      q9b.last = true ∧ q9b.lexer.chars = []) :=
  ⟨⟨wf9a, rfl, C9_opener_invariant.1 p9a none q9a wf9a (by decide) rfl⟩,
   ⟨by decide, by decide,
    C9_opener_invariant.2 p9b ⟨.Str, ⟨0, 3⟩⟩ q9b (by decide) (by decide)⟩⟩

theorem Parser.parseAtom_last (o : List (Container × Nat)) (E : List Event)
    (sp : Span) (lx : Lexer) (st : State) (t : Token) (b c : Bool) :
    (Parser.mk o E sp lx st c).parseAtom t = (Parser.mk o E sp lx st b).parseAtom t := rfl

theorem Parser.parseVerbatim_last (o : List (Container × Nat)) (E : List Event)
    (sp : Span) (lx : Lexer) (st : State) (t : Token) (b c : Bool) :
    (Parser.mk o E sp lx st c).parseVerbatim t =
      ((Parser.mk o E sp lx st b).parseVerbatim t).map
        (Option.map fun r => ({ r.1 with last := c }, r.2)) := by
  unfold Parser.parseVerbatim Parser.peekTok Parser.eat
  dsimp only
  repeat' split
  all_goals simp_all [Except.map]

theorem Parser.parseContainer_last (o : List (Container × Nat)) (E : List Event)
    (sp : Span) (lx : Lexer) (st : State) (t : Token) (b c : Bool) :
    (Parser.mk o E sp lx st c).parseContainer t =
      ((Parser.mk o E sp lx st b).parseContainer t).map
        (Option.map fun r => ({ r.1 with last := c }, r.2)) := by
  unfold Parser.parseContainer
  dsimp only
  repeat' split
  all_goals simp_all [Except.map]

theorem Parser.parseEvent_last (o : List (Container × Nat)) (E : List Event)
    (sp : Span) (lx : Lexer) (st : State) (b c : Bool) :
    (Parser.mk o E sp lx st c).parseEvent =
      ((Parser.mk o E sp lx st b).parseEvent).map
        (fun r => ({ r.1 with last := c }, r.2)) := by
  unfold Parser.parseEvent Parser.resetSpan Parser.eat
  dsimp only
  rcases hlex : lexToken lx.chars with _ | ⟨t, rest⟩
  · simp [Except.map]
  · dsimp only
    rw [Parser.parseVerbatim_last (b := b), Parser.parseContainer_last (b := b),
      Parser.parseAtom_last (b := b) (c := c)]
    repeat' split
    all_goals simp_all [Except.map]

theorem Parser.nextLoopF_last (n : Nat) : ∀ (p : Parser) (c : Bool),
    Parser.nextLoopF n { p with last := c } =
      (Parser.nextLoopF n p).map (fun r => ({ r.1 with last := c }, r.2)) := by
  induction n with
  | zero =>
    intro p c
    simp [Parser.nextLoopF, Except.map]
  | succ n ih =>
    intro p c
    have he : ({ p with last := c } : Parser).parseEvent =
        p.parseEvent.map (fun r => ({ r.1 with last := c }, r.2)) := by
      have h0 : Parser.mk p.openers p.events p.span p.lexer p.state p.last = p := rfl
      have h1 := Parser.parseEvent_last p.openers p.events p.span p.lexer p.state p.last c
      rw [h0] at h1
      exact h1
    simp only [Parser.nextLoopF]
    rw [show ({ p with last := c } : Parser).loopCond = p.loopCond from rfl, he]
    by_cases hc : p.loopCond
    · rw [if_pos hc, if_pos hc]
      rcases hpe : p.parseEvent with e | ⟨p1, r⟩
      · simp [Except.map]
      · rcases r with _ | ev
        · simp [Except.map]
        · simp only [Except.map]
          show Parser.nextLoopF n ({ (p1.push ev) with last := c }) = _
          exact ih (p1.push ev) c
    · rw [if_neg hc, if_neg hc]
      simp [Except.map]

theorem Parser.nextLoop_last (p : Parser) (c : Bool) :
    ({ p with last := c } : Parser).nextLoop =
      p.nextLoop.map (fun r => ({ r.1 with last := c }, r.2)) :=
  Parser.nextLoopF_last (p.lexer.chars.length + 1) p c

theorem Parser.next_some_setLast {p p' : Parser} {ev : Event}
    (hl : p.last = false) (hnext : p.next = .ok (some ev, p')) :
    ({ p with last := true } : Parser).next = .ok (some ev, { p' with last := true }) := by
  unfold Parser.next at hnext ⊢
  rw [Parser.nextLoop_last p true]
  rcases hloop : p.nextLoop with e | ⟨q, nm⟩ <;> rw [hloop] at hnext
  · exact absurd hnext (by simp)
  · simp only [Except.map]
    dsimp only at hnext
    rw [if_pos (show (({ q with last := true } : Parser).last || !nm) = true from by simp)]
    by_cases hpop : (q.last || !nm) = true
    · rw [if_pos hpop] at hnext
      rcases hevs : q.events with _ | ⟨front, rest⟩ <;> rw [hevs] at hnext <;>
        dsimp only at hnext <;> dsimp only
      · rcases hv : q.state.verbatim? with _ | ⟨⟨k2, l2, e2⟩⟩ <;> rw [hv] at hnext <;>
          dsimp only at hnext <;> dsimp only
        · exact absurd hnext (by simp)
        · simp only [Except.ok.injEq, Prod.mk.injEq] at hnext
          obtain ⟨h1, rfl⟩ := hnext
          rw [Option.some.injEq] at h1
          subst h1
          rfl
      · by_cases hS : front.kind = .Str
        · rw [if_pos hS] at hnext
          rw [if_pos hS]
          rcases hm : mergeStrs front.span rest with msg | ⟨sp2, rest2⟩ <;>
            rw [hm] at hnext <;> dsimp only at hnext <;> dsimp only
          · exact absurd hnext (by simp)
          · simp only [Except.ok.injEq, Prod.mk.injEq] at hnext
            obtain ⟨h1, rfl⟩ := hnext
            rw [Option.some.injEq] at h1
            subst h1
            rfl
        · rw [if_neg hS] at hnext
          rw [if_neg hS]
          simp only [Except.ok.injEq, Prod.mk.injEq] at hnext
          obtain ⟨h1, rfl⟩ := hnext
          rw [Option.some.injEq] at h1
          subst h1
          rfl
    · rw [if_neg hpop] at hnext
      exact absurd hnext (by simp)

theorem Parser.next_setLast_none {p p2 : Parser}
    (hl : p.last = false) (hnext : p.next = .ok (none, p2)) :
    p2.lexer.chars = [] ∧ p2.last = false ∧
    ({ p with last := true } : Parser).next = ({ p2 with last := true } : Parser).next := by
  unfold Parser.next at hnext
  rcases hloop : p.nextLoop with e | ⟨q, nm⟩ <;> rw [hloop] at hnext
  · exact absurd hnext (by simp)
  · have hspec := Parser.nextLoop_spec hloop
    have hql : q.last = false := by rw [hspec.2.1, hl]
    dsimp only at hnext
    by_cases hpop : (q.last || !nm) = true
    · -- a pop step can only return `none` with an empty queue, which forces
      -- the loop condition to be true, contradicting nm = false
      have hnm : nm = false := by
        cases hnmc : nm
        · rfl
        · rw [hql, hnmc] at hpop
          simp at hpop
      have hparts := loopCond_false_parts (hspec.2.2.2.1 hnm)
      rw [if_pos hpop] at hnext
      rcases hevs : q.events with _ | ⟨front, rest⟩
      · exact absurd hevs hparts.1
      · rw [hevs] at hnext
        dsimp only at hnext
        by_cases hS : front.kind = .Str
        · rw [if_pos hS] at hnext
          rcases hm : mergeStrs front.span rest with msg | ⟨sp2, rest2⟩ <;>
            rw [hm] at hnext <;> dsimp only at hnext <;> exact absurd hnext (by simp)
        · rw [if_neg hS] at hnext
          exact absurd hnext (by simp)
    · rw [if_neg hpop] at hnext
      have hnm : nm = true := by
        cases hnmc : nm
        · rw [hql, hnmc] at hpop
          simp at hpop
        · rfl
      simp only [Except.ok.injEq, Prod.mk.injEq] at hnext
      obtain ⟨-, rfl⟩ := hnext
      have hqlex : q.lexer.chars = [] := lexToken_none_eq_nil (hspec.2.2.1 hnm)
      refine ⟨hqlex, hql, ?_⟩
      have hpe : q.parseEvent = .ok (q, none) := by
        have h0 : q.parseEvent = .ok (q.resetSpan, none) := by
          unfold Parser.parseEvent
          rw [Parser.eat_fst_none (p := q.resetSpan)
            (by simp [Parser.resetSpan, hqlex, lexToken])]
        rw [hspec.2.2.2.2 hnm] at h0
        exact h0
      have hqloop : ∃ m, q.nextLoop = .ok (q, m) := by
        rw [Parser.nextLoop_eq]
        by_cases hqlc : q.loopCond
        · rw [if_pos hqlc, hpe]
          exact ⟨true, rfl⟩
        · rw [if_neg hqlc]
          exact ⟨false, rfl⟩
      obtain ⟨m, hqloop⟩ := hqloop
      unfold Parser.next
      rw [Parser.nextLoop_last p true, Parser.nextLoop_last q true, hloop, hqloop]
      simp only [Except.map]
      rw [if_pos (show (({ q with last := true } : Parser).last || !nm) = true from by simp),
        if_pos (show (({ q with last := true } : Parser).last || !m) = true from by simp)]

theorem Parser.drain_split_aux (n : Nat) : ∀ (p : Parser) (E1 : List Event)
    (p2 : Parser), p.mu ≤ n → WF p → p.last = false → p.drain = .ok (E1, p2) →
    ∃ E2 p3, ({ p with last := true } : Parser).drain = .ok (E1 ++ E2, p3) ∧
      ({ p2 with last := true } : Parser).drain = .ok (E2, p3) ∧
      p2.lexer.chars = [] := by
  induction n with
  | zero =>
    intro p E1 p2 hn hwf hl hd
    rw [Parser.drain_eq] at hd
    rcases hnext : p.next with e | ⟨r, p'⟩ <;> rw [hnext] at hd
    · dsimp only at hd
      exact absurd hd (by simp)
    · rcases r with _ | ev
      · dsimp only at hd
        simp only [Except.ok.injEq, Prod.mk.injEq] at hd
        obtain ⟨rfl, rfl⟩ := hd
        obtain ⟨hlex2, hl2, heqn⟩ := Parser.next_setLast_none hl hnext
        obtain ⟨r2, q2, hn2, hinv2, hlq2⟩ := Parser.next_inv (Or.inl hwf)
        rw [hnext] at hn2
        simp only [Except.ok.injEq, Prod.mk.injEq] at hn2
        obtain ⟨-, rfl⟩ := hn2
        have hwf2 : WF p' := by
          rcases hinv2 with h | ⟨ht, _, _⟩
          · exact h
          · rw [hlq2, hl] at ht
            exact absurd ht (by simp)
        obtain ⟨E2, p3, hd2, _, _⟩ := Parser.drain_inv (p := { p' with last := true })
          (Or.inr ⟨rfl, hlex2, fun i a b ha hb => hwf2.w3 i a b ha hb⟩)
        refine ⟨E2, p3, ?_, hd2, hlex2⟩
        rw [Parser.drain_eq, heqn, ← Parser.drain_eq, hd2, List.nil_append]
      · have hlt := Parser.next_some_mu_lt hnext
        omega
  | succ n ih =>
    intro p E1 p2 hn hwf hl hd
    rw [Parser.drain_eq] at hd
    rcases hnext : p.next with e | ⟨r, p'⟩ <;> rw [hnext] at hd
    · dsimp only at hd
      exact absurd hd (by simp)
    · rcases r with _ | ev
      · dsimp only at hd
        simp only [Except.ok.injEq, Prod.mk.injEq] at hd
        obtain ⟨rfl, rfl⟩ := hd
        obtain ⟨hlex2, hl2, heqn⟩ := Parser.next_setLast_none hl hnext
        obtain ⟨r2, q2, hn2, hinv2, hlq2⟩ := Parser.next_inv (Or.inl hwf)
        rw [hnext] at hn2
        simp only [Except.ok.injEq, Prod.mk.injEq] at hn2
        obtain ⟨-, rfl⟩ := hn2
        have hwf2 : WF p' := by
          rcases hinv2 with h | ⟨ht, _, _⟩
          · exact h
          · rw [hlq2, hl] at ht
            exact absurd ht (by simp)
        obtain ⟨E2, p3, hd2, _, _⟩ := Parser.drain_inv (p := { p' with last := true })
          (Or.inr ⟨rfl, hlex2, fun i a b ha hb => hwf2.w3 i a b ha hb⟩)
        refine ⟨E2, p3, ?_, hd2, hlex2⟩
        rw [Parser.drain_eq, heqn, ← Parser.drain_eq, hd2, List.nil_append]
      · dsimp only at hd
        rcases hd' : p'.drain with e2 | ⟨E1', p2x⟩ <;> rw [hd'] at hd <;>
          dsimp only at hd
        · exact absurd hd (by simp)
        · simp only [Except.ok.injEq, Prod.mk.injEq] at hd
          obtain ⟨rfl, rfl⟩ := hd
          have hnextT := Parser.next_some_setLast hl hnext
          have hlt := Parser.next_some_mu_lt hnext
          obtain ⟨r2, q2, hn2, hinv2, hlq2⟩ := Parser.next_inv (Or.inl hwf)
          rw [hnext] at hn2
          simp only [Except.ok.injEq, Prod.mk.injEq] at hn2
          obtain ⟨-, rfl⟩ := hn2
          have hl' : p'.last = false := by rw [hlq2, hl]
          have hwf' : WF p' := by
            rcases hinv2 with h | ⟨ht, _, _⟩
            · exact h
            · rw [hl'] at ht
              exact absurd ht (by simp)
          obtain ⟨E2, p3, hT, h2T, hlex2⟩ := ih p' E1' p2x (by omega) hwf' hl' hd'
          refine ⟨E2, p3, ?_, h2T, hlex2⟩
          rw [Parser.drain_eq, hnextT]
          dsimp only
          rw [hT, List.cons_append]

theorem Parser.drain_split {p : Parser} {E1 : List Event} {p2 : Parser}
    (hwf : WF p) (hl : p.last = false) (hd : p.drain = .ok (E1, p2)) :
    ∃ E2 p3, ({ p with last := true } : Parser).drain = .ok (E1 ++ E2, p3) ∧
      ({ p2 with last := true } : Parser).drain = .ok (E2, p3) ∧
      p2.lexer.chars = [] :=
  Parser.drain_split_aux p.mu p E1 p2 (le_refl _) hwf hl hd

/-- C1 (amended): the lexer is recreated for every chunk, so a chunk boundary
always acts as a token boundary and splitting inside a token run changes the
events (see the counterexample).  The protocol equivalence does hold when the
boundary cannot split a token: supplying the whole input as one non-final
chunk followed by an empty final chunk yields exactly the events of parsing
it as a single final chunk. -/
theorem C1_chunk_boundary (s : List Char) :
    runChunks [(s, false), ([], true)] = runChunks [(s, true)] := by
  have hwf0 : WF ({ Parser.new with lexer := ⟨s⟩, last := false } : Parser) :=
    ⟨wf_new.w1, wf_new.w2, wf_new.w3, wf_new.w4, wf_new.w5⟩
  have hP0 : Parser.new.parse s false =
      .ok { Parser.new with lexer := ⟨s⟩, last := false } := by
    unfold Parser.parse
    dsimp only
    rw [if_neg (by simp)]
  have hP0T : Parser.new.parse s true =
      .ok { Parser.new with lexer := ⟨s⟩, last := true } := by
    unfold Parser.parse
    dsimp only
    rw [if_neg (by simp [Parser.new])]
  obtain ⟨E1, p2, hd, hinv2, hl2⟩ := Parser.drain_inv (Or.inl hwf0)
  have hl2' : p2.last = false := hl2
  obtain ⟨E2, p3, hdT, hd2T, hlex2⟩ := Parser.drain_split hwf0 rfl hd
  have hdT' : ({ Parser.new with lexer := ⟨s⟩, last := true } : Parser).drain =
      .ok (E1 ++ E2, p3) := hdT
  have hlx : p2.lexer = ⟨[]⟩ := by
    have h0 : p2.lexer = ⟨p2.lexer.chars⟩ := rfl
    rw [h0, hlex2]
  have hparse2 : p2.parse [] true = .ok { p2 with last := true } := by
    unfold Parser.parse
    dsimp only
    rw [if_neg (by simp [hl2'])]
    rw [← hlx]
  unfold runChunks
  simp only [runChunksAux, hP0, hP0T, hd, hparse2, hd2T, hdT']
  simp

theorem runLen_drop (c : Char) (cs : List Char) :
    (runLen c cs).2 = cs.drop (runLen c cs).1 := by
  induction cs with
  | nil => simp [runLen]
  | cons x xs ih =>
    by_cases h : x = c
    · simp only [runLen, if_pos h]
      rw [ih]
      rfl
    · simp [runLen, h]

theorem lexToken_drop {cs : List Char} {t : Token} {rest : List Char}
    (h : lexToken cs = some (t, rest)) : rest = cs.drop t.len := by
  match cs with
  | [] => simp [lexToken] at h
  | c :: cs' =>
    have hrun := runLen_drop c cs'
    simp only [lexToken, lexOther] at h
    repeat' split at h
    all_goals cases h
    all_goals simp only [Token.len]
    all_goals first
      | rfl
      | (rw [hrun]; rfl)

/-- The spans of a queue segment are consecutive: the first starts at `k`,
each span starts where the previous stopped and does not run backwards, and
the last stops at `m`. -/
def chain : Nat → List Event → Nat → Prop
  | k, [], m => k = m
  | k, ev :: rest, m =>
    ev.span.start = k ∧ k ≤ ev.span.stop ∧ chain ev.span.stop rest m

theorem chain_le : ∀ {evs : List Event} {k m : Nat}, chain k evs m → k ≤ m := by
  intro evs
  induction evs with
  | nil => intro k m h; exact le_of_eq h
  | cons ev rest ih =>
    intro k m h
    exact le_trans h.2.1 (ih h.2.2)

theorem chain_append : ∀ {evs : List Event} {k m : Nat}, chain k evs m →
    ∀ {ev : Event}, ev.span.start = m → m ≤ ev.span.stop →
    chain k (evs ++ [ev]) ev.span.stop := by
  intro evs
  induction evs with
  | nil =>
    intro k m h ev h1 h2
    rw [h]
    exact ⟨h1, h2, rfl⟩
  | cons f rest ih =>
    intro k m h ev h1 h2
    exact ⟨h.1, h.2.1, ih h.2.2 h1 h2⟩

theorem chain_set : ∀ {evs : List Event} {e : Nat} {k m : Nat} {x0 x : Event},
    chain k evs m → evs[e]? = some x0 → x.span = x0.span →
    chain k (evs.set e x) m := by
  intro evs
  induction evs with
  | nil =>
    intro e k m x0 x h he hsp
    simp at he
  | cons f rest ih =>
    intro e k m x0 x h he hsp
    cases e with
    | zero =>
      simp only [List.getElem?_cons_zero, Option.some.injEq] at he
      subst he
      rw [List.set_cons_zero]
      exact ⟨by rw [hsp]; exact h.1, by rw [hsp]; exact h.2.1, by rw [hsp]; exact h.2.2⟩
    | succ e' =>
      rw [List.set_cons_succ]
      exact ⟨h.1, h.2.1, ih h.2.2 (by simpa using he) hsp⟩

theorem mergeStrs_chain_pres : ∀ {rest : List Event} {sp : Span} {m : Nat}
    {sp' : Span} {rest' : List Event},
    chain sp.stop rest m → mergeStrs sp rest = .ok (sp', rest') →
    sp'.start = sp.start ∧ sp.stop ≤ sp'.stop ∧ chain sp'.stop rest' m := by
  intro rest
  induction rest with
  | nil =>
    intro sp m sp' rest' hch hm
    simp only [mergeStrs, Except.ok.injEq, Prod.mk.injEq] at hm
    obtain ⟨rfl, rfl⟩ := hm
    exact ⟨rfl, le_refl _, hch⟩
  | cons ev rest ih =>
    intro sp m sp' rest' hch hm
    simp only [mergeStrs] at hm
    split at hm
    · split at hm
      · have hch2 : chain (sp.union ev.span).stop rest m := by
          show chain ev.span.stop rest m
          exact hch.2.2
        obtain ⟨h1, h2, h3⟩ := ih hch2 hm
        refine ⟨h1, ?_, h3⟩
        calc sp.stop ≤ ev.span.stop := hch.2.1
          _ = (sp.union ev.span).stop := rfl
          _ ≤ sp'.stop := h2
      · exact absurd hm (by simp)
    · simp only [Except.ok.injEq, Prod.mk.injEq] at hm
      obtain ⟨rfl, rfl⟩ := hm
      exact ⟨rfl, le_refl _, hch⟩

theorem chain_eventText (s : List Char) : ∀ {evs : List Event} {k m : Nat},
    chain k evs m → m ≤ s.length →
    eventText s evs = (s.drop k).take (m - k) := by
  intro evs
  induction evs with
  | nil =>
    intro k m h hm
    rw [h]
    simp [eventText]
  | cons ev rest ih =>
    intro k m h hm
    obtain ⟨h1, h2, h3⟩ := h
    have hjm : ev.span.stop ≤ m := chain_le h3
    have hrec := ih h3 hm
    show ev.span.sliceOf s ++ eventText s rest = _
    rw [hrec]
    unfold Span.sliceOf
    rw [h1]
    rw [List.drop_take]
    have hdd : s.drop ev.span.stop = (s.drop k).drop (ev.span.stop - k) := by
      rw [List.drop_drop]
      congr 1
      omega
    rw [hdd]
    rw [← List.take_add]
    congr 1
    omega

/-- The tiling invariant: the unread characters are exactly the suffix of the
original input at the span cursor, the cursor is in bounds, and the queued
events' spans tile the input contiguously from position `c` to the cursor. -/
def TIC (s : List Char) (c : Nat) (p : Parser) : Prop :=
  p.lexer.chars = List.drop p.span.stop s ∧ p.span.stop ≤ s.length ∧
    chain c p.events p.span.stop

theorem Parser.parseEvent_chain {s : List Char} {c : Nat} {p : Parser}
    (hwf : WF p) (hbr : ('{' : Char) ∉ s) (hti : TIC s c p) :
    p.parseEvent = .ok (p.resetSpan, none) ∨
    (∃ p1 ev, p.parseEvent = .ok (p1, some ev) ∧ TIC s c (p1.push ev)) := by
  obtain ⟨hti1, hti2, hti3⟩ := hti
  rcases hlex : lexToken p.lexer.chars with _ | ⟨t, rest⟩
  · left
    unfold Parser.parseEvent
    rw [Parser.eat_fst_none (p := p.resetSpan) (by simpa [Parser.resetSpan] using hlex)]
  · right
    rw [Parser.parseEvent_eq_some hlex]
    obtain ⟨hlt, h1t⟩ := lexToken_length hlex
    have hclen : p.lexer.chars.length = s.length - p.span.stop := by
      rw [hti1, List.length_drop]
    have hstop2 : p.span.stop + t.len ≤ s.length := by omega
    have hrest : rest = List.drop (p.span.stop + t.len) s := by
      have h1 := lexToken_drop hlex
      rw [hti1, List.drop_drop] at h1
      rw [h1]
    rcases hst : p.state.verbatim? with _ | ⟨k, l, e⟩
    · by_cases hbt : t.kind = .Seq .Backtick
      · -- open a verbatim span
        rw [Parser.parseVerbatim_openVerbatim (p := p.afterTok t rest) hst hbt]
        dsimp only
        refine ⟨_, _, rfl, ?_, ?_, ?_⟩
        · exact hrest
        · exact hstop2
        · exact chain_append hti3 rfl (Nat.le_add_right _ _)
      · by_cases hdl : t.kind = .Seq .Dollar ∧ t.len ≤ 2 ∧
            ∃ t2 rest2, lexToken rest = some (t2, rest2) ∧ t2.kind = .Seq .Backtick
        · -- open a math span
          obtain ⟨hdk, hdlen, t2, rest2, hlex2, ht2⟩ := hdl
          obtain ⟨hlt2, h1t2⟩ := lexToken_length hlex2
          have hrest2 : rest2 = List.drop (p.span.stop + t.len + t2.len) s := by
            have h1 := lexToken_drop hlex2
            rw [hrest, List.drop_drop] at h1
            rw [h1]
          have hstop3 : p.span.stop + t.len + t2.len ≤ s.length := by
            have : rest.length = s.length - (p.span.stop + t.len) := by
              rw [hrest, List.length_drop]
            omega
          rw [Parser.parseVerbatim_openMath (p := p.afterTok t rest) hst hdk hdlen hlex2 ht2]
          dsimp only
          refine ⟨_, _, rfl, ?_, ?_, ?_⟩
          · exact hrest2
          · exact hstop3
          · refine chain_append hti3 rfl ?_
            show p.span.stop ≤ p.span.stop + t.len + t2.len
            omega
        · rw [Parser.parseVerbatim_openNone (p := p.afterTok t rest) hst hbt (by
            intro hdk hdlen t2 rest2 hlex2 ht2
            exact absurd ⟨hdk, hdlen, t2, rest2, hlex2, ht2⟩ hdl)]
          dsimp only
          rcases hco : containerOf? t.kind with _ | ⟨cont, dir⟩
          · rw [show (p.afterTok t rest).parseContainer t = .ok none from by
              unfold Parser.parseContainer
              rw [hco]]
            dsimp only
            rcases hat : (p.afterTok t rest).parseAtom t with _ | ev
            · -- plain text
              dsimp only
              refine ⟨_, _, rfl, ?_, ?_, ?_⟩
              · exact hrest
              · exact hstop2
              · exact chain_append hti3 rfl (Nat.le_add_right _ _)
            · -- an atom event, spanning the token
              dsimp only
              obtain ⟨a, hak, hsp⟩ := Parser.parseAtom_kind hat
              refine ⟨_, _, rfl, ?_, ?_, ?_⟩
              · exact hrest
              · exact hstop2
              · have hc := chain_append hti3
                  (show ev.span.start = p.span.stop from by rw [hsp]; rfl)
                  (show p.span.stop ≤ ev.span.stop from by
                    rw [hsp]; exact Nat.le_add_right _ _)
                rw [hsp] at hc
                exact hc
          · rcases hr : rpos p.openers cont with _ | ⟨o, e⟩
            · rw [Parser.parseContainer_push (p := p.afterTok t rest) hco (Or.inl hr)]
              dsimp only
              refine ⟨_, _, rfl, ?_, ?_, ?_⟩
              · exact hrest
              · exact hstop2
              · exact chain_append hti3 rfl (Nat.le_add_right _ _)
            · obtain ⟨x0, hx0, hx0k⟩ := hwf.w1 (cont, e) (List.getElem?_mem (rpos_getElem hr))
              rcases hdir : dir with _ | _ | _
              all_goals subst hdir
              · rw [Parser.parseContainer_push (p := p.afterTok t rest) hco (Or.inr rfl)]
                dsimp only
                refine ⟨_, _, rfl, ?_, ?_, ?_⟩
                · exact hrest
                · exact hstop2
                · exact chain_append hti3 rfl (Nat.le_add_right _ _)
              · rw [Parser.parseContainer_close (p := p.afterTok t rest) hco
                  (Or.inl rfl) hr hx0]
                dsimp only
                refine ⟨_, _, rfl, ?_, ?_, ?_⟩
                · exact hrest
                · exact hstop2
                · refine chain_append (chain_set (x := ⟨.Enter cont, x0.span⟩) hti3 hx0 rfl) ?_ ?_
                  · rfl
                  · show p.span.stop ≤ p.span.stop + t.len
                    omega
              · rw [Parser.parseContainer_close (p := p.afterTok t rest) hco
                  (Or.inr rfl) hr hx0]
                dsimp only
                refine ⟨_, _, rfl, ?_, ?_, ?_⟩
                · exact hrest
                · exact hstop2
                · refine chain_append (chain_set (x := ⟨.Enter cont, x0.span⟩) hti3 hx0 rfl) ?_ ?_
                  · rfl
                  · show p.span.stop ≤ p.span.stop + t.len
                    omega
    · -- in verbatim mode
      have hste : p.state = .Verbatim k l e := State.verbatim?_eq_some hst
      obtain ⟨oev, hoev, hko⟩ := hwf.w2 k l e hste
      by_cases hclose : t.kind = .Seq .Backtick ∧ t.len = l
      · by_cases hkV : k = Container.Verbatim
        · subst hkV
          by_cases hra : RawAnnot rest
          · -- impossible: an annotation needs a brace character in the input
            obtain ⟨ident, rest2, hch2, hne2, hid⟩ := hra
            have hin : ('{' : Char) ∈ List.drop (p.span.stop + t.len) s := by
              rw [← hrest, hch2]
              simp
            exact absurd (List.drop_subset _ _ hin) hbr
          · rw [Parser.parseVerbatim_closePlain (p := p.afterTok t rest)
              hste hoev hko hclose.1 hclose.2
              (show ¬ RawAnnot (p.afterTok t rest).lexer.chars from hra)]
            dsimp only
            refine ⟨_, _, rfl, ?_, ?_, ?_⟩
            · exact hrest
            · exact hstop2
            · exact chain_append hti3 rfl (Nat.le_add_right _ _)
        · rw [Parser.parseVerbatim_closeMath (p := p.afterTok t rest)
            hste hoev hko hclose.1 hclose.2 hkV]
          dsimp only
          refine ⟨_, _, rfl, ?_, ?_, ?_⟩
          · exact hrest
          · exact hstop2
          · exact chain_append hti3 rfl (Nat.le_add_right _ _)
      · rw [Parser.parseVerbatim_content (p := p.afterTok t rest) hste hoev hko hclose]
        dsimp only
        refine ⟨_, _, rfl, ?_, ?_, ?_⟩
        · exact hrest
        · exact hstop2
        · exact chain_append hti3 rfl (Nat.le_add_right _ _)

theorem Parser.parseEvent_wf_of_some {p p1 : Parser} {ev : Event} (hwf : WF p)
    (hpe : p.parseEvent = .ok (p1, some ev)) : WF (p1.push ev) := by
  rcases Parser.parseEvent_wf hwf with ⟨hpe2, -⟩ | ⟨p1x, evx, hpe2, hwf2⟩
  · rw [hpe] at hpe2
    simp at hpe2
  · rw [hpe] at hpe2
    simp only [Except.ok.injEq, Prod.mk.injEq, Option.some.injEq] at hpe2
    obtain ⟨rfl, rfl⟩ := hpe2
    exact hwf2

theorem tic_resetSpan {s : List Char} {c : Nat} {p : Parser} (h : TIC s c p) :
    TIC s c p.resetSpan :=
  ⟨h.1, h.2.1, h.2.2⟩

theorem Parser.nextLoopF_tic {s : List Char} (hbr : ('{' : Char) ∉ s) (n : Nat) :
    ∀ (p q : Parser) (nm : Bool) (c : Nat), WF p → TIC s c p →
    Parser.nextLoopF n p = .ok (q, nm) → TIC s c q := by
  induction n with
  | zero =>
    intro p q nm c hwf hti h
    simp [Parser.nextLoopF] at h
  | succ n ih =>
    intro p q nm c hwf hti h
    simp only [Parser.nextLoopF] at h
    split at h
    · rcases Parser.parseEvent_chain hwf hbr hti with hpe | ⟨p1, ev, hpe, hti2⟩
      · rw [hpe] at h
        dsimp only at h
        simp only [Except.ok.injEq, Prod.mk.injEq] at h
        obtain ⟨rfl, -⟩ := h
        exact tic_resetSpan hti
      · rw [hpe] at h
        dsimp only at h
        exact ih (p1.push ev) q nm c (Parser.parseEvent_wf_of_some hwf hpe) hti2 h
    · simp only [Except.ok.injEq, Prod.mk.injEq] at h
      obtain ⟨rfl, -⟩ := h
      exact hti

theorem Parser.nextLoop_tic {s : List Char} (hbr : ('{' : Char) ∉ s)
    {p q : Parser} {nm : Bool} {c : Nat} (hwf : WF p) (hti : TIC s c p)
    (h : p.nextLoop = .ok (q, nm)) : TIC s c q :=
  Parser.nextLoopF_tic hbr (p.lexer.chars.length + 1) p q nm c hwf hti h

theorem Parser.next_tic {s : List Char} {c : Nat} {p : Parser} {r : Option Event}
    {p' : Parser} (hbr : ('{' : Char) ∉ s) (hinv : Inv p) (hti : TIC s c p)
    (hnext : p.next = .ok (r, p')) :
    (r = none → TIC s c p') ∧
    (∀ ev, r = some ev → ev.span.start = c ∧ c ≤ ev.span.stop ∧
      TIC s ev.span.stop p') := by
  unfold Parser.next at hnext
  rcases hloop : p.nextLoop with e | ⟨q, nm⟩ <;> rw [hloop] at hnext
  · exact absurd hnext (by simp)
  · have hspec := Parser.nextLoop_spec hloop
    have htiq : TIC s c q := by
      rcases hinv with hwf | ⟨hlast, hlex, hw3⟩
      · exact Parser.nextLoop_tic hbr hwf hti hloop
      · rw [Parser.nextLoop_eq] at hloop
        by_cases hc2 : p.loopCond
        · rw [if_pos hc2] at hloop
          rw [show p.parseEvent = .ok (p.resetSpan, none) from by
            unfold Parser.parseEvent
            rw [Parser.eat_fst_none (p := p.resetSpan)
              (by simp [Parser.resetSpan, hlex, lexToken])]] at hloop
          dsimp only at hloop
          simp only [Except.ok.injEq, Prod.mk.injEq] at hloop
          obtain ⟨rfl, -⟩ := hloop
          exact tic_resetSpan hti
        · rw [if_neg hc2] at hloop
          simp only [Except.ok.injEq, Prod.mk.injEq] at hloop
          obtain ⟨rfl, -⟩ := hloop
          exact hti
    dsimp only at hnext
    by_cases hpop : (q.last || !nm) = true
    · rw [if_pos hpop] at hnext
      rcases hevs : q.events with _ | ⟨front, rest⟩ <;> rw [hevs] at hnext <;>
        dsimp only at hnext
      · -- empty queue: either a verbatim auto-close or the need-more signal
        have hnm : nm = true := by
          cases hnmc : nm
          · exact absurd hevs (loopCond_false_parts (hspec.2.2.2.1 hnmc)).1
          · rfl
        have hreset : q.resetSpan = q := hspec.2.2.2.2 hnm
        have hqspan : q.span.start = q.span.stop := by
          have : (q.resetSpan).span.start = (q.resetSpan).span.stop := rfl
          rw [hreset] at this
          exact this
        have hcstop : c = q.span.stop := by
          have h3 := htiq.2.2
          rw [hevs] at h3
          exact h3
        rcases hv : q.state.verbatim? with _ | ⟨⟨k2, l2, e2⟩⟩ <;> rw [hv] at hnext <;>
          dsimp only at hnext
        · simp only [Except.ok.injEq, Prod.mk.injEq] at hnext
          obtain ⟨rfl, rfl⟩ := hnext
          constructor
          · intro h0
            exact htiq
          · intro ev h0
            cases h0
        · simp only [Except.ok.injEq, Prod.mk.injEq] at hnext
          obtain ⟨rfl, rfl⟩ := hnext
          constructor
          · intro h0
            cases h0
          · intro ev2 h0
            rw [Option.some.injEq] at h0
            subst h0
            have hstart : (⟨.Exit k2, q.span⟩ : Event).span.start = c := by
              show q.span.start = c
              rw [hqspan, hcstop]
            have hle : c ≤ (⟨.Exit k2, q.span⟩ : Event).span.stop := by
              show c ≤ q.span.stop
              rw [hcstop]
            refine ⟨hstart, hle, htiq.1, htiq.2.1, ?_⟩
            exact rfl
      · by_cases hS : front.kind = .Str
        · rw [if_pos hS] at hnext
          have hfront : front.span.start = c ∧ c ≤ front.span.stop ∧
              chain front.span.stop rest q.span.stop := by
            have h3 := htiq.2.2
            rw [hevs] at h3
            exact h3
          rcases hm : mergeStrs front.span rest with msg | ⟨sp2, rest2⟩ <;>
            rw [hm] at hnext <;> dsimp only at hnext
          · exact absurd hnext (by simp)
          · obtain ⟨hm1, hm2, hm3⟩ := mergeStrs_chain_pres hfront.2.2 hm
            simp only [Except.ok.injEq, Prod.mk.injEq] at hnext
            obtain ⟨rfl, rfl⟩ := hnext
            constructor
            · intro h0
              cases h0
            · intro ev2 h0
              rw [Option.some.injEq] at h0
              subst h0
              have hstart : (⟨.Str, sp2⟩ : Event).span.start = c := by
                show sp2.start = c
                rw [hm1]
                exact hfront.1
              refine ⟨hstart, ?_, htiq.1, htiq.2.1, ?_⟩
              · show c ≤ sp2.stop
                exact le_trans hfront.2.1 hm2
              · show chain sp2.stop rest2 q.span.stop
                exact hm3
        · rw [if_neg hS] at hnext
          have hfront : front.span.start = c ∧ c ≤ front.span.stop ∧
              chain front.span.stop rest q.span.stop := by
            have h3 := htiq.2.2
            rw [hevs] at h3
            exact h3
          simp only [Except.ok.injEq, Prod.mk.injEq] at hnext
          obtain ⟨rfl, rfl⟩ := hnext
          constructor
          · intro h0
            cases h0
          · intro ev2 h0
            rw [Option.some.injEq] at h0
            subst h0
            exact ⟨hfront.1, hfront.2.1, htiq.1, htiq.2.1, hfront.2.2⟩
    · rw [if_neg hpop] at hnext
      simp only [Except.ok.injEq, Prod.mk.injEq] at hnext
      obtain ⟨rfl, rfl⟩ := hnext
      constructor
      · intro h0
        exact htiq
      · intro ev2 h0
        cases h0

theorem Parser.drain_tic_aux (s : List Char) (hbr : ('{' : Char) ∉ s)
    (n : Nat) : ∀ (p : Parser) (E : List Event) (p' : Parser) (c : Nat),
    p.mu ≤ n → Inv p → TIC s c p → p.drain = .ok (E, p') →
    ∃ d, chain c E d ∧ TIC s d p' := by
  induction n with
  | zero =>
    intro p E p' c hn hinv hti hd
    rw [Parser.drain_eq] at hd
    rcases hnext : p.next with e | ⟨r, p2⟩ <;> rw [hnext] at hd
    · dsimp only at hd
      exact absurd hd (by simp)
    · rcases r with _ | ev
      · dsimp only at hd
        simp only [Except.ok.injEq, Prod.mk.injEq] at hd
        obtain ⟨rfl, rfl⟩ := hd
        exact ⟨c, rfl, (Parser.next_tic hbr hinv hti hnext).1 rfl⟩
      · have := Parser.next_some_mu_lt hnext
        omega
  | succ n ih =>
    intro p E p' c hn hinv hti hd
    rw [Parser.drain_eq] at hd
    rcases hnext : p.next with e | ⟨r, p2⟩ <;> rw [hnext] at hd
    · dsimp only at hd
      exact absurd hd (by simp)
    · rcases r with _ | ev
      · dsimp only at hd
        simp only [Except.ok.injEq, Prod.mk.injEq] at hd
        obtain ⟨rfl, rfl⟩ := hd
        exact ⟨c, rfl, (Parser.next_tic hbr hinv hti hnext).1 rfl⟩
      · dsimp only at hd
        rcases hd' : p2.drain with e2 | ⟨E2, p3⟩ <;> rw [hd'] at hd <;>
          dsimp only at hd
        · exact absurd hd (by simp)
        · simp only [Except.ok.injEq, Prod.mk.injEq] at hd
          obtain ⟨rfl, rfl⟩ := hd
          obtain ⟨hs1, hs2, hti2⟩ := (Parser.next_tic hbr hinv hti hnext).2 ev rfl
          have hmu := Parser.next_some_mu_lt hnext
          obtain ⟨r2, q2, hn2, hinv2, -⟩ := Parser.next_inv hinv
          rw [hnext] at hn2
          simp only [Except.ok.injEq, Prod.mk.injEq] at hn2
          obtain ⟨-, rfl⟩ := hn2
          obtain ⟨d, hchd, htid⟩ := ih p2 E2 p3 ev.span.stop (by omega) hinv2 hti2 hd'
          exact ⟨d, ⟨hs1, hs2, hchd⟩, htid⟩

theorem Parser.next_none_final {p p' : Parser} (hl : p.last = true)
    (hnext : p.next = .ok (none, p')) :
    p'.events = [] ∧ p'.lexer.chars = [] := by
  unfold Parser.next at hnext
  rcases hloop : p.nextLoop with e | ⟨q, nm⟩ <;> rw [hloop] at hnext
  · exact absurd hnext (by simp)
  · have hspec := Parser.nextLoop_spec hloop
    have hql : q.last = true := by rw [hspec.2.1, hl]
    dsimp only at hnext
    rw [if_pos (by simp [hql])] at hnext
    rcases hevs : q.events with _ | ⟨front, rest⟩ <;> rw [hevs] at hnext <;>
      dsimp only at hnext
    · have hnm : nm = true := by
        cases hnmc : nm
        · exact absurd hevs (loopCond_false_parts (hspec.2.2.2.1 hnmc)).1
        · rfl
      rcases hv : q.state.verbatim? with _ | ⟨⟨k2, l2, e2⟩⟩ <;> rw [hv] at hnext <;>
        dsimp only at hnext
      · simp only [Except.ok.injEq, Prod.mk.injEq] at hnext
        obtain ⟨-, rfl⟩ := hnext
        exact ⟨hevs, lexToken_none_eq_nil (hspec.2.2.1 hnm)⟩
      · exact absurd hnext (by simp)
    · by_cases hS : front.kind = .Str
      · rw [if_pos hS] at hnext
        rcases hm : mergeStrs front.span rest with msg | ⟨sp2, rest2⟩ <;>
          rw [hm] at hnext <;> dsimp only at hnext <;> exact absurd hnext (by simp)
      · rw [if_neg hS] at hnext
        exact absurd hnext (by simp)

theorem Parser.drain_final_aux (n : Nat) : ∀ (p : Parser) (E : List Event)
    (p' : Parser), p.mu ≤ n → p.last = true → p.drain = .ok (E, p') →
    p'.events = [] ∧ p'.lexer.chars = [] := by
  induction n with
  | zero =>
    intro p E p' hn hl hd
    rw [Parser.drain_eq] at hd
    rcases hnext : p.next with e | ⟨r, p2⟩ <;> rw [hnext] at hd
    · dsimp only at hd
      exact absurd hd (by simp)
    · rcases r with _ | ev
      · dsimp only at hd
        simp only [Except.ok.injEq, Prod.mk.injEq] at hd
        obtain ⟨rfl, rfl⟩ := hd
        exact Parser.next_none_final hl hnext
      · have := Parser.next_some_mu_lt hnext
        omega
  | succ n ih =>
    intro p E p' hn hl hd
    rw [Parser.drain_eq] at hd
    rcases hnext : p.next with e | ⟨r, p2⟩ <;> rw [hnext] at hd
    · dsimp only at hd
      exact absurd hd (by simp)
    · rcases r with _ | ev
      · dsimp only at hd
        simp only [Except.ok.injEq, Prod.mk.injEq] at hd
        obtain ⟨rfl, rfl⟩ := hd
        exact Parser.next_none_final hl hnext
      · dsimp only at hd
        rcases hd' : p2.drain with e2 | ⟨E2, p3⟩ <;> rw [hd'] at hd <;>
          dsimp only at hd
        · exact absurd hd (by simp)
        · simp only [Except.ok.injEq, Prod.mk.injEq] at hd
          obtain ⟨rfl, rfl⟩ := hd
          have hmu := Parser.next_some_mu_lt hnext
          have hl2 : p2.last = true := by
            obtain ⟨p1, nm, hloop, -, -, hlq, -⟩ := Parser.next_some_state hnext
            rw [hlq, (Parser.nextLoop_spec hloop).2.1, hl]
          exact ih p2 E2 p3 (by omega) hl2 hd'

/-- C2 (amended): span reconstruction holds on every input containing no
brace character (so no raw-format annotation can be recognized): the whole
input parses to completion and concatenating the text addressed by every
emitted event's span, in order, yields the input exactly.  On inputs with a
recognized raw-format annotation the reconstruction fails (see the
counterexample). -/
theorem C2_span_reconstruction (s : List Char) (hbr : ('{' : Char) ∉ s) :
    ∃ E, parseAll s = .ok E ∧ eventText s E = s := by
  have hwf0 : WF ({ Parser.new with lexer := ⟨s⟩, last := true } : Parser) :=
    ⟨wf_new.w1, wf_new.w2, wf_new.w3, wf_new.w4, wf_new.w5⟩
  have hP0T : Parser.new.parse s true =
      .ok { Parser.new with lexer := ⟨s⟩, last := true } := by
    unfold Parser.parse
    dsimp only
    rw [if_neg (by simp [Parser.new])]
  obtain ⟨E, p', hd, hinv', hl'⟩ := Parser.drain_inv (Or.inl hwf0)
  have hti0 : TIC s 0 ({ Parser.new with lexer := ⟨s⟩, last := true } : Parser) :=
    ⟨(List.drop_zero s).symm, Nat.zero_le _, rfl⟩
  obtain ⟨d, hchE, hti'⟩ := Parser.drain_tic_aux s hbr
    ({ Parser.new with lexer := ⟨s⟩, last := true } : Parser).mu _ E p' 0
    (le_refl _) (Or.inl hwf0) hti0 hd
  obtain ⟨hev0, hlex0⟩ := Parser.drain_final_aux
    ({ Parser.new with lexer := ⟨s⟩, last := true } : Parser).mu _ E p'
    (le_refl _) rfl hd
  have hds : d = p'.span.stop := by
    have h3 := hti'.2.2
    rw [hev0] at h3
    exact h3
  have hstop : p'.span.stop = s.length := by
    have h1 := hti'.1
    rw [hlex0] at h1
    have h2 : (0 : Nat) = (List.drop p'.span.stop s).length := by
      rw [← h1]
      rfl
    rw [List.length_drop] at h2
    have := hti'.2.1
    omega
  refine ⟨E, ?_, ?_⟩
  · unfold parseAll runChunks
    simp [runChunksAux, hP0T, hd]
  · rw [chain_eventText s hchE (le_of_eq (hds.trans hstop)), hds, hstop]
    simp

theorem C2_span_reconstruction_witness :
    ('{' : Char) ∉ (['*', 'a', '*'] : List Char) ∧
    (∃ E, parseAll ['*', 'a', '*'] = .ok E ∧
      eventText ['*', 'a', '*'] E = ['*', 'a', '*']) :=
  ⟨by decide, C2_span_reconstruction ['*', 'a', '*'] (by decide)⟩

end Jotdown
